import Mathlib

/-!
Verification of the RAG-Debugger derivation layer.

This file embeds the pure derivation functions of the RAG-Debugger frontend
(relation-matrix resolution, claim and chunk classification, metric
normalization, run-wide chunk aggregation and duplicate detection) as Lean
definitions and proves, or refutes, the specified properties about them.

Embedding conventions:
- JS arrays become `List`, `undefined` becomes `none` in an `Option`.
- Relation matrix cells are `String`s, as in the JSON payload; matrices are
  `List (List String)` and a missing cell reads as `none`.
- JS numbers are embedded as `ℚ` (finite values; `NaN`, non-numeric and
  missing inputs of `Number(x) || 0` coercions are folded into `none` of an
  `Option ℚ`).
- JS string truthiness is `s ≠ ""`.
- Sequential early-return code is modelled by `Option (Option String)`
  step values chained with `orElse`: `some r` means the JS function returned
  `r` (possibly `undefined`, i.e. `none`) at that step, `none` means control
  fell through to the next step.
-/

/-! ### Relation matrices and the shape-detecting resolver -/

/-- Reading a cell `m[r][e]` of a matrix, `none` when either index is out of
bounds (JS `undefined`). -/
def readCell (m : List (List String)) (r e : Nat) : Option String :=
  ((m[r]?).getD [])[e]?

/-- Length of row `r`, `0` when the row does not exist. -/
def rowLen (m : List (List String)) (r : Nat) : Nat :=
  ((m[r]?).getD []).length

/-- Length of the first row when the matrix is non-empty (JS `matrix[0]` being
an array). -/
def firstLen (m : List (List String)) : Option Nat :=
  (m[0]?).map List.length

/-- Embedding of `relAtLocal` from the question inspector: the robust
orientation-detecting relation accessor.  `cc` and `clc` are the optional
known chunk and claim counts (`typeof cc === 'number'` is `cc ≠ none`).
Each `let`-bound step models one early-return block of the source; `some r`
means that block returned `r`. -/
def relAtLocal (m : List (List String)) (cIdx clIdx : Nat)
    (cc clc : Option Nat) : Option String :=
  let byOuterChunk : Option (Option String) :=
    if cc = some m.length then (m[cIdx]?).map (fun row => row[clIdx]?) else none
  let byOuterClaim : Option (Option String) :=
    if clc = some m.length then (m[clIdx]?).map (fun row => row[cIdx]?) else none
  let byFirstClaimLen : Option (Option String) :=
    match m[0]? with
    | some first =>
        if clc = some first.length then (m[cIdx]?).map (fun row => row[clIdx]?) else none
    | none => none
  let byFirstChunkLen : Option (Option String) :=
    match m[0]? with
    | some first =>
        if cc = some first.length then (m[clIdx]?).map (fun row => row[cIdx]?) else none
    | none => none
  let byChunk : Option (Option String) :=
    match m[cIdx]? with
    | some row => if clIdx < row.length then some row[clIdx]? else none
    | none => none
  let byClaim : Option (Option String) :=
    match m[clIdx]? with
    | some row => if cIdx < row.length then some row[cIdx]? else none
    | none => none
  (((((byOuterChunk.orElse fun _ => byOuterClaim).orElse
      fun _ => byFirstClaimLen).orElse
      fun _ => byFirstChunkLen).orElse
      fun _ => byChunk).orElse
      fun _ => byClaim).getD none

/-- The resolution order exactly as the claim states it: (a) outer length
equals the chunk count AND inner length equals the claim count, read
chunk-major; (b) outer equals claim count and inner equals chunk count, read
claim-major; (c) direct `m[chunk][claim]` if in bounds; (d) `m[claim][chunk]`
if in bounds; (e) unknown.  This definition follows the words of the claim,
for comparison against `relAtLocal`. -/
def relAtClaimed (m : List (List String)) (cIdx clIdx C K : Nat) : Option String :=
  if m.length = C ∧ firstLen m = some K then readCell m cIdx clIdx
  else if m.length = K ∧ firstLen m = some C then readCell m clIdx cIdx
  else if clIdx < rowLen m cIdx then readCell m cIdx clIdx
  else if cIdx < rowLen m clIdx then readCell m clIdx cIdx
  else none

/-- The resolution order the source actually implements, written out as one
if-chain (the amended claim): (a) if the outer length equals the chunk count
and the chunk row exists, read chunk-major -- even when the cell itself is
missing; (b) likewise claim-major on the claim count; (c) if the first row's
length equals the claim count, read chunk-major; (d) if it equals the chunk
count, read claim-major; (e) direct chunk-major if fully in bounds; (f)
claim-major if in bounds; (g) unknown. -/
def relAtResolved (m : List (List String)) (cIdx clIdx : Nat)
    (cc clc : Option Nat) : Option String :=
  if cc = some m.length ∧ cIdx < m.length then readCell m cIdx clIdx
  else if clc = some m.length ∧ clIdx < m.length then readCell m clIdx cIdx
  else if clc = firstLen m ∧ clc ≠ none ∧ cIdx < m.length then readCell m cIdx clIdx
  else if cc = firstLen m ∧ cc ≠ none ∧ clIdx < m.length then readCell m clIdx cIdx
  else if clIdx < rowLen m cIdx then readCell m cIdx clIdx
  else if cIdx < rowLen m clIdx then readCell m clIdx cIdx
  else none

/-- Transpose of a rectangular matrix whose rows have length `k`: column `j`
of the input becomes row `j` of the output. -/
def transposeM (m : List (List String)) (k : Nat) : List (List String) :=
  (List.range k).map (fun j => m.filterMap (fun row => row[j]?))

/-! ### Claim classification -/

/-- Derived status of a single claim. -/
inductive ClaimStatus where
  | entailed
  | neutral
  | contradiction
deriving DecidableEq, Repr

/-- ASCII lower-casing of a character, standing in for JS `toLowerCase` on
the ASCII relation strings this program compares. -/
def lowerChar (c : Char) : Char :=
  if 'A' ≤ c ∧ c ≤ 'Z' then Char.ofNat (c.toNat + 32) else c

/-- Lower-casing of a string. -/
def lowerStr (s : String) : String := ⟨s.data.map lowerChar⟩

/-- Embedding of `mapRelToStatus`: `String(rel ?? '').toLowerCase()` then a
case-insensitive comparison; anything unrecognized is neutral. -/
def mapRelToStatus (rel : Option String) : ClaimStatus :=
  let s := lowerStr (rel.getD "")
  if s = "entailment" then .entailed
  else if s = "contradiction" then .contradiction
  else .neutral

/-- An entry of a direct per-claim judgment array: either a plain value or an
array (in which case the source reads its first element). -/
inductive DEntry where
  | val (v : String)
  | arr (l : List String)
deriving DecidableEq, Repr

/-- The relation the source extracts from a direct-array entry:
`Array.isArray(raw) ? raw[0] : raw`, with `none` for a missing entry. -/
def dEntryRel : Option DEntry → Option String
  | none => none
  | some (.val v) => some v
  | some (.arr l) => l[0]?

/-- Embedding of `mapDirectStatuses`: map a direct claim-level relation array
(`none` when the field is absent or not an array) to `targetLen` statuses,
ignoring the chunk matrices. -/
def mapDirectStatuses (relations : Option (List DEntry)) (targetLen : Nat) :
    List ClaimStatus :=
  let arr := relations.getD []
  (List.range targetLen).map (fun i => mapRelToStatus (dEntryRel arr[i]?))

/-! ### Questions and chunks -/

/-- Raw per-chunk effectiveness payload attached by the backend; every field
is optional and arrives untrusted.  A numeric field is `none` when missing,
non-numeric or `NaN` (everything `Number(x) || 0` coerces to `0`). -/
structure EffAnalysis where
  total_appearances : Option ℚ := none
  frequency_rank : Option ℚ := none
  questions_appeared : Option (List String) := none
  gt_entailments : Option ℚ := none
  gt_neutrals : Option ℚ := none
  gt_contradictions : Option ℚ := none
  response_entailments : Option ℚ := none
  response_neutrals : Option ℚ := none
  response_contradictions : Option ℚ := none
  gt_entailment_rate : Option ℚ := none
  response_entailment_rate : Option ℚ := none
deriving DecidableEq, Repr

/-- A retrieved chunk. -/
structure Chunk where
  doc_id : String
  text : String
  effectiveness_analysis : Option EffAnalysis := none
deriving DecidableEq, Repr

/-- The fields of a question record that the derivation layer consumes.
Claim lists hold the already-extracted claim strings; `response2answer` and
`answer2response` are the optional direct per-claim judgment arrays (`none`
when the field is absent or not an array). -/
structure Question where
  query_id : String
  retrieved_context : List Chunk
  gt_answer_claims : List String
  response_claims : List String
  retrieved2answer : List (List String)
  retrieved2response : List (List String)
  response2answer : Option (List DEntry) := none
  answer2response : Option (List DEntry) := none
deriving DecidableEq, Repr

/-- Embedding of `gtClaimStatuses`: per-GT-claim status from the direct
`response2answer` array only. -/
def gtClaimStatuses (q : Question) : List ClaimStatus :=
  mapDirectStatuses q.response2answer q.gt_answer_claims.length

/-- Embedding of `respClaimStatuses`: per-response-claim status from the
direct `answer2response` array only. -/
def respClaimStatuses (q : Question) : List ClaimStatus :=
  mapDirectStatuses q.answer2response q.response_claims.length

/-- Status of claim `i` obtained by aggregating across chunks via the
resolver, as the claim describes the fallback: Contradiction if any chunk
contradicts the claim, else Entailment if any chunk entails it, else Neutral.
This definition follows the words of the claim, for comparison against
`gtClaimStatuses` and `respClaimStatuses`. -/
def aggClaimStatus (matrix : List (List String)) (chunkCount : Nat)
    (claims : List String) (i : Nat) : ClaimStatus :=
  if (List.range chunkCount).any
      (fun c => relAtLocal matrix c i (some chunkCount) (some claims.length)
        == some "Contradiction") then .contradiction
  else if (List.range chunkCount).any
      (fun c => relAtLocal matrix c i (some chunkCount) (some claims.length)
        == some "Entailment") then .entailed
  else .neutral

/-! ### Per-chunk claim sets and the dual-axis chunk status -/

/-- One side of the per-chunk claim evidence sets. -/
structure RelSet where
  entailments : List String
  contradictions : List String
  neutrals : List String
deriving DecidableEq, Repr

/-- Both sides of the per-chunk claim evidence sets. -/
structure ClaimSets where
  gt : RelSet
  response : RelSet
deriving DecidableEq, Repr

/-- Embedding of `pushByRel`: skip falsy claims and falsy relations, then
append the claim to the set matching the exact relation literal; any other
relation is dropped. -/
def pushByRel (target : RelSet) (rel : Option String) (claim : String) : RelSet :=
  if claim = "" ∨ rel.getD "" = "" then target
  else if rel = some "Entailment" then
    { target with entailments := target.entailments ++ [claim] }
  else if rel = some "Contradiction" then
    { target with contradictions := target.contradictions ++ [claim] }
  else if rel = some "Neutral" then
    { target with neutrals := target.neutrals ++ [claim] }
  else target

/-- The per-claim loop of `getClaimSetsForChunk` for one matrix and one claim
list: for each claim index, resolve the relation and push. -/
def accumRels (matrix : List (List String)) (chunkIndex : Nat)
    (claims : List String) (chunkCount : Nat) : RelSet :=
  (List.range claims.length).foldl
    (fun t i =>
      pushByRel t
        (relAtLocal matrix chunkIndex i (some chunkCount) (some claims.length))
        ((claims[i]?).getD ""))
    ⟨[], [], []⟩

/-- Embedding of `getClaimSetsForChunk`: GT and response evidence sets for
one chunk of one question, resolved through `relAtLocal` with the known
chunk and claim counts. -/
def getClaimSetsForChunk (q : Question) (chunkIndex : Nat) : ClaimSets :=
  let chunkCount := q.retrieved_context.length
  { gt := accumRels q.retrieved2answer chunkIndex q.gt_answer_claims chunkCount
    response := accumRels q.retrieved2response chunkIndex q.response_claims chunkCount }

/-- Input-quality status of a chunk. -/
inductive ChunkStatus where
  | relevant
  | irrelevant
  | harming
deriving DecidableEq, Repr

/-- Generator-usage status of a chunk. -/
inductive UsageStatus where
  | grounded
  | unused
  | contradicting
deriving DecidableEq, Repr

/-- Embedding of `chunkStatusForSets`: harming on any GT contradiction, else
relevant on any GT entailment, else irrelevant. -/
def chunkStatusForSets (sets : ClaimSets) : ChunkStatus :=
  if 0 < sets.gt.contradictions.length then .harming
  else if 0 < sets.gt.entailments.length then .relevant
  else .irrelevant

/-- Embedding of `usageStatusForSets`: contradicting on any response
contradiction, else grounded on any response entailment, else unused. -/
def usageStatusForSets (sets : ClaimSets) : UsageStatus :=
  if 0 < sets.response.contradictions.length then .contradicting
  else if 0 < sets.response.entailments.length then .grounded
  else .unused

/-- Modelled from the spec: `isIrrelevantFromSets` lives in
`frontend/src/utils/relevance.ts`, which is not part of the provided
sources; per the spec a chunk is irrelevant when it neither entails nor
contradicts any GT claim (Neutral only). -/
def isIrrelevantFromSets (sets : ClaimSets) : Bool :=
  sets.gt.entailments.isEmpty && sets.gt.contradictions.isEmpty

/-- True when the resolver reports relation `rel` between the chunk and some
claim of the list. -/
def anyRel (matrix : List (List String)) (chunkIndex : Nat)
    (claims : List String) (chunkCount : Nat) (rel : String) : Bool :=
  (List.range claims.length).any
    (fun i => relAtLocal matrix chunkIndex i (some chunkCount) (some claims.length)
      == some rel)

/-- A bundle of the six per-chunk boolean indicators used by the summary
counters and by the per-chunk filter flags. -/
structure ChunkFlags where
  relevant : Bool
  irrelevant : Bool
  harming : Bool
  grounded : Bool
  unused : Bool
  contradicting : Bool
deriving DecidableEq, Repr

/-- The six per-chunk indicator tests of the chunk summary row, one per
pill counter, exactly as the summary loop tests them: any GT entailment,
`isIrrelevantFromSets`, any GT contradiction, any response entailment, no
response entailment, any response contradiction. -/
def summaryFlags (q : Question) (idx : Nat) : ChunkFlags :=
  let sets := getClaimSetsForChunk q idx
  { relevant := 0 < sets.gt.entailments.length
    irrelevant := isIrrelevantFromSets sets
    harming := 0 < sets.gt.contradictions.length
    grounded := 0 < sets.response.entailments.length
    unused := sets.response.entailments.length = 0
    contradicting := 0 < sets.response.contradictions.length }

/-- Embedding of the `flags` record computed per rendered chunk. -/
def flagsFor (q : Question) (idx : Nat) : ChunkFlags :=
  let sets := getClaimSetsForChunk q idx
  let status := chunkStatusForSets sets
  { relevant := status = .relevant
    irrelevant := status = .irrelevant
    harming := status = .harming
    grounded := 0 < sets.response.entailments.length
    unused := sets.response.entailments.length = 0
    contradicting := 0 < sets.response.contradictions.length }

/-- Number of `true`s among three booleans. -/
def boolCount3 (a b c : Bool) : Nat :=
  (cond a 1 0) + (cond b 1 0) + (cond c 1 0)

/-! ### Metric normalization -/

namespace RunOverview

/-- Embedding of `normalize` from the run overview: values above 1 are read
as percentages and capped at 1, everything else is clamped into `[0, 1]`. -/
def normalize (val : ℚ) : ℚ :=
  if 1 < val then min (val / 100) 1 else max 0 (min val 1)

end RunOverview

/-- Modelled from the spec: the MetricNormalizer of the spec records a
WARNING when a raw value falls outside `[0, 100]`; the warning channel
belongs to `MetricsDisplay.tsx`, which is not part of the provided sources.
Returns the normalized value together with the warning flag. -/
def normalizeSpec (v : ℚ) : ℚ × Bool :=
  if 0 ≤ v ∧ v ≤ 1 then (v, false)
  else if 1 < v ∧ v ≤ 100 then (v / 100, false)
  else (min 1 (max 0 v), true)

/-! ### Run-wide chunk aggregation -/

/-- The Map key the chunk analysis uses for run-wide identity: the joined
string `doc_id:text`. -/
def chunkKey (d x : String) : String := d ++ ":" ++ x

/-- JS chunk validity guard: both `doc_id` and `text` truthy. -/
def validChunk (ch : Chunk) : Bool := ch.doc_id ≠ "" && ch.text ≠ ""

/-- JS `question.query_id || 'unknown'`. -/
def effQid (q : Question) : String :=
  if q.query_id = "" then "unknown" else q.query_id

/-- Counting the maximal non-whitespace runs of a character list; the flag
records whether the previous character was part of a word. -/
def countWordsAux : Bool → List Char → Nat
  | _, [] => 0
  | inWord, c :: rest =>
    if c.isWhitespace then countWordsAux false rest
    else (if inWord then 0 else 1) + countWordsAux true rest

/-- Embedding of the word counter
`text.split(/\s+/).filter(w => w.length > 0).length`. -/
def wordCount (s : String) : Nat := countWordsAux false s.data

/-- One aggregated run-wide chunk record. -/
structure ChunkInfo where
  doc_id : String
  text : String
  frequency : Nat
  questions : List String
  wordCount : Nat
deriving DecidableEq, Repr

/-- Appending an element to a list unless already present, as the source
guards `questions.push`. -/
def addQ (l : List String) (s : String) : List String :=
  if s ∈ l then l else l ++ [s]

/-- One `chunkMap` update for a valid chunk occurrence: locate the entry
with the same joined key (JS Maps iterate in insertion order, modelled by the
list order) and bump it, or append a fresh entry with frequency 1. -/
def upsert (m : List ChunkInfo) (d x qid : String) : List ChunkInfo :=
  match m with
  | [] => [⟨d, x, 1, [qid], wordCount x⟩]
  | info :: rest =>
    if chunkKey info.doc_id info.text = chunkKey d x then
      { info with frequency := info.frequency + 1
                  questions := addQ info.questions qid } :: rest
    else info :: upsert rest d x qid

/-- Processing one chunk occurrence of one question: invalid chunks are
skipped before touching the map. -/
def processOcc (m : List ChunkInfo) (p : String × Chunk) : List ChunkInfo :=
  if validChunk p.2 then upsert m p.2.doc_id p.2.text p.1 else m

/-- Every `(question, chunk)` occurrence of the run in question order,
tagged with the effective query id, before the validity guard. -/
def occList (qs : List Question) : List (String × Chunk) :=
  qs.flatMap (fun q => q.retrieved_context.map (fun ch => (effQid q, ch)))

/-- Embedding of the `chunkMap` build of the chunk analysis. -/
def buildChunkMap (qs : List Question) : List ChunkInfo :=
  (occList qs).foldl processOcc []

/-- Sum of the aggregated frequencies. -/
def sumFreq (m : List ChunkInfo) : Nat := (m.map ChunkInfo.frequency).sum

/-- The valid occurrences of the run (those that pass the guard and reach
the map). -/
def validOccs (qs : List Question) : List (String × Chunk) :=
  (occList qs).filter (fun p => validChunk p.2)

/-- The valid occurrences carrying a given joined key. -/
def keyOccs (qs : List Question) (k : String) : List (String × Chunk) :=
  (occList qs).filter
    (fun p => validChunk p.2 && decide (chunkKey p.2.doc_id p.2.text = k))

/-- Lookup of the map entry with a given joined key. -/
def lookupKey (m : List ChunkInfo) (k : String) : Option ChunkInfo :=
  m.find? (fun info => chunkKey info.doc_id info.text = k)

/-! ### Duplicate detection -/

/-- Whitespace-run collapsing: every maximal whitespace run becomes one
space; the flag records whether the previous character was whitespace. -/
def collapseAux : Bool → List Char → List Char
  | _, [] => []
  | prevWS, c :: rest =>
    if c.isWhitespace then
      (if prevWS then [] else [' ']) ++ collapseAux true rest
    else c :: collapseAux false rest

/-- Dropping leading and trailing whitespace of a character list. -/
def trimChars (l : List Char) : List Char :=
  ((l.dropWhile Char.isWhitespace).reverse.dropWhile Char.isWhitespace).reverse

/-- Embedding of the duplicate normalization
`text.trim().replace(/\s+/g, ' ')`. -/
def normText (s : String) : String := ⟨collapseAux false (trimChars s.data)⟩

/-- A duplicate-group member: `(doc_id, original text)`. -/
def dupMember (info : ChunkInfo) : String × String :=
  ((if info.doc_id = "" then "unknown" else info.doc_id), info.text)

/-- One `duplicateMap` update: append the member to the entry keyed by the
normalized text, or open a fresh entry. -/
def dupUpsert (dm : List (String × List (String × String)))
    (ntext : String) (member : String × String) :
    List (String × List (String × String)) :=
  match dm with
  | [] => [(ntext, [member])]
  | (k, ms) :: rest =>
    if k = ntext then (k, ms ++ [member]) :: rest
    else (k, ms) :: dupUpsert rest ntext member

/-- One step of the `duplicateMap` build: group one aggregated chunk by its
normalized text, skipping entries with falsy text. -/
def dstep (dm : List (String × List (String × String))) (info : ChunkInfo) :
    List (String × List (String × String)) :=
  if info.text ≠ "" then dupUpsert dm (normText info.text) (dupMember info)
  else dm

/-- Embedding of the `duplicateMap` build. -/
def buildDupMap (m : List ChunkInfo) : List (String × List (String × String)) :=
  m.foldl dstep []

/-- Lookup of the duplicate-map entry keyed by a normalized text. -/
def dupLookup (dm : List (String × List (String × String))) (t : String) :
    Option (String × List (String × String)) :=
  dm.find? (fun p => p.1 = t)

/-- How a batch of new members lands on an optional existing entry. -/
def dupCombine (acc : Option (String × List (String × String))) (t : String)
    (ms : List (String × String)) : Option (String × List (String × String)) :=
  match acc, ms with
  | some p, ms => some (p.1, p.2 ++ ms)
  | none, [] => none
  | none, ms => some (t, ms)

/-- The duplicate-map grouping test for one aggregated chunk and one
normalized text. -/
def dupPred (t : String) (info : ChunkInfo) : Bool :=
  decide (info.text ≠ "") && decide (normText info.text = t)

/-- A reported duplicate group. -/
structure DuplicateGroup where
  normalizedText : String
  chunks : List (String × String)
deriving DecidableEq, Repr

/-- The JS `Set` size of the truthy doc ids of a member list. -/
def distinctDocIds (ms : List (String × String)) : Nat :=
  (((ms.map Prod.fst).filter (fun d => d ≠ "")).foldl addQ []).length

/-- Embedding of `duplicateGroups`: keep the normalized-text groups spanning
more than one member and more than one distinct doc id, drop members with
falsy fields, and stable-sort by descending member count (JS sort is
stable; `mergeSort` is the stable sort). -/
def duplicateGroups (qs : List Question) : List DuplicateGroup :=
  let dm := buildDupMap (buildChunkMap qs)
  let filtered := dm.filter
    (fun p => decide (1 < p.2.length) && decide (1 < distinctDocIds p.2))
  let mapped := filtered.map
    (fun p => DuplicateGroup.mk p.1 (p.2.filter (fun c => c.1 ≠ "" && c.2 ≠ "")))
  mapped.mergeSort (fun a b => decide (b.chunks.length ≤ a.chunks.length))

/-! ### The whole-run effectiveness table -/

/-- JS `Math.max(0, Number(x) || 0)` over an optional numeric field. -/
def numCoerce (o : Option ℚ) : ℚ := max 0 (o.getD 0)

/-- JS `Math.max(0, Math.min(1, Number(x) || 0))`. -/
def rateCoerce (o : Option ℚ) : ℚ := max 0 (min 1 (o.getD 0))

/-- One row of the whole-run chunk-effectiveness table. -/
structure EnhancedChunkData where
  doc_id : String
  text : String
  frequency : ℚ
  frequency_rank : ℚ
  questions : List String
  wordCount : Nat
  gt_entailments : ℚ
  gt_neutrals : ℚ
  gt_contradictions : ℚ
  response_entailments : ℚ
  response_neutrals : ℚ
  response_contradictions : ℚ
  gt_entailment_rate : ℚ
  response_entailment_rate : ℚ
deriving DecidableEq, Repr

/-- Building one table row from a chunk and its effectiveness payload,
with every numeric field coerced defensively. -/
def mkEnhanced (ch : Chunk) (ea : EffAnalysis) : EnhancedChunkData :=
  { doc_id := ch.doc_id
    text := ch.text
    frequency := numCoerce ea.total_appearances
    frequency_rank := numCoerce ea.frequency_rank
    questions := ea.questions_appeared.getD []
    wordCount := wordCount ch.text
    gt_entailments := numCoerce ea.gt_entailments
    gt_neutrals := numCoerce ea.gt_neutrals
    gt_contradictions := numCoerce ea.gt_contradictions
    response_entailments := numCoerce ea.response_entailments
    response_neutrals := numCoerce ea.response_neutrals
    response_contradictions := numCoerce ea.response_contradictions
    gt_entailment_rate := rateCoerce ea.gt_entailment_rate
    response_entailment_rate := rateCoerce ea.response_entailment_rate }

/-- One `enhancedChunkMap` update: a valid occurrence carrying a payload is
inserted only when its joined key is not yet present; everything else leaves
the map untouched. -/
def processEnh (m : List EnhancedChunkData) (p : String × Chunk) :
    List EnhancedChunkData :=
  if validChunk p.2 then
    match p.2.effectiveness_analysis with
    | some ea =>
      if m.any (fun e => chunkKey e.doc_id e.text = chunkKey p.2.doc_id p.2.text)
      then m
      else m ++ [mkEnhanced p.2 ea]
    | none => m
  else m

/-- Embedding of the `enhancedChunkMap` build of the chunk analysis. -/
def buildEnhancedMap (qs : List Question) : List EnhancedChunkData :=
  (occList qs).foldl processEnh []

/-- Lookup of the table row with a given joined key. -/
def lookupEnh (m : List EnhancedChunkData) (k : String) : Option EnhancedChunkData :=
  m.find? (fun e => chunkKey e.doc_id e.text = k)


/-- The per-key effect of one aggregation step, seen through `lookupKey`. -/
def updOcc (acc : Option ChunkInfo) (p : String × Chunk) : Option ChunkInfo :=
  some (match acc with
    | none => ⟨p.2.doc_id, p.2.text, 1, [p.1], wordCount p.2.text⟩
    | some info => { info with frequency := info.frequency + 1
                               questions := addQ info.questions p.1 })

/-- Keys of the aggregated entries, in map order. -/
def keysOf (m : List ChunkInfo) : List String :=
  m.map (fun i => chunkKey i.doc_id i.text)

/-! ### Concrete fixtures used by counterexamples and witnesses -/

/-- A question with one chunk entailing its single GT claim and no direct
per-claim judgment array. -/
def qC2 : Question :=
  { query_id := "q1"
    retrieved_context := [⟨"d", "t", none⟩]
    gt_answer_claims := ["a"]
    response_claims := []
    retrieved2answer := [["Entailment"]]
    retrieved2response := [] }

/-- A question whose single chunk both entails one GT claim and contradicts
another, and likewise for the response claims. -/
def qC4 : Question :=
  { query_id := "q4"
    retrieved_context := [⟨"d", "t", none⟩]
    gt_answer_claims := ["a", "b"]
    response_claims := ["x", "y"]
    retrieved2answer := [["Entailment", "Contradiction"]]
    retrieved2response := [["Entailment", "Contradiction"]] }

/-- First question of the key-collision run: chunk ("a", "b:c"). -/
def qColl1 : Question :=
  { query_id := "q1"
    retrieved_context := [⟨"a", "b:c", none⟩]
    gt_answer_claims := []
    response_claims := []
    retrieved2answer := []
    retrieved2response := [] }

/-- Second question of the key-collision run: chunk ("a:b", "c"), whose
joined key "a:b:c" collides with the one of ("a", "b:c"). -/
def qColl2 : Question :=
  { query_id := "q2"
    retrieved_context := [⟨"a:b", "c", none⟩]
    gt_answer_claims := []
    response_claims := []
    retrieved2answer := []
    retrieved2response := [] }

/-- A question carrying both colliding chunks and a third chunk ("z", "c")
whose text matches ("a:b", "c") under normalization. -/
def qDup : Question :=
  { query_id := "q1"
    retrieved_context := [⟨"a", "b:c", none⟩, ⟨"a:b", "c", none⟩, ⟨"z", "c", none⟩]
    gt_answer_claims := []
    response_claims := []
    retrieved2answer := []
    retrieved2response := [] }

/-- Key injectivity of a run: distinct valid chunks never share a joined
doc_id:text key (broken only by doc ids containing a colon). -/
def keyInj (qs : List Question) : Prop :=
  ∀ p1 ∈ validOccs qs, ∀ p2 ∈ validOccs qs,
    chunkKey p1.2.doc_id p1.2.text = chunkKey p2.2.doc_id p2.2.text →
    p1.2.doc_id = p2.2.doc_id ∧ p1.2.text = p2.2.text

/-- A question holding two valid chunks with distinct doc ids and the same
text, for exercising duplicate detection. -/
def qW : Question :=
  { query_id := "w"
    retrieved_context := [⟨"d1", "same text", none⟩, ⟨"d2", "same text", none⟩]
    gt_answer_claims := []
    response_claims := []
    retrieved2answer := []
    retrieved2response := [] }

/-- The eligibility test for an occurrence to seed the effectiveness row of
key `k`: valid chunk, matching joined key, payload present. -/
def enhOcc (k : String) (p : String × Chunk) : Bool :=
  validChunk p.2 && decide (chunkKey p.2.doc_id p.2.text = k)
    && p.2.effectiveness_analysis.isSome

/-- The row an occurrence would contribute, when it carries a payload. -/
def mkRowOf (p : String × Chunk) : Option EnhancedChunkData :=
  (p.2.effectiveness_analysis).map (mkEnhanced p.2)

/-- The payload fixture: a raw effectiveness record with 5 appearances. -/
def eaE : EffAnalysis := { total_appearances := some 5 }

/-- A question whose chunk ("d", "t") carries no effectiveness payload. -/
def qE1 : Question :=
  { query_id := "e1"
    retrieved_context := [⟨"d", "t", none⟩]
    gt_answer_claims := []
    response_claims := []
    retrieved2answer := []
    retrieved2response := [] }

/-- A question whose chunk ("d", "t") carries the payload `eaE`. -/
def qE2 : Question :=
  { query_id := "e2"
    retrieved_context := [⟨"d", "t", some eaE⟩]
    gt_answer_claims := []
    response_claims := []
    retrieved2answer := []
    retrieved2response := [] }

/-! ### Helper lemmas -/

theorem chain6_getD (s1 s2 s3 s4 s5 s6 : Option (Option String)) :
    ((((((s1.orElse fun _ => s2).orElse fun _ => s3).orElse
      fun _ => s4).orElse fun _ => s5).orElse fun _ => s6).getD none)
    = s1.getD (s2.getD (s3.getD (s4.getD (s5.getD (s6.getD none))))) := by
  cases s1 <;> cases s2 <;> cases s3 <;> cases s4 <;> cases s5 <;> cases s6 <;> rfl

theorem relAtLocal_eq_chain (m : List (List String)) (cIdx clIdx : Nat)
    (cc clc : Option Nat) :
    relAtLocal m cIdx clIdx cc clc =
      ((if cc = some m.length then (m[cIdx]?).map (fun row => row[clIdx]?) else none).getD
      ((if clc = some m.length then (m[clIdx]?).map (fun row => row[cIdx]?) else none).getD
      ((match m[0]? with
        | some (first : List String) =>
            if clc = some first.length then (m[cIdx]?).map (fun row => row[clIdx]?) else none
        | none => none).getD
      ((match m[0]? with
        | some (first : List String) =>
            if cc = some first.length then (m[clIdx]?).map (fun row => row[cIdx]?) else none
        | none => none).getD
      ((match m[cIdx]? with
        | some row => if clIdx < row.length then some row[clIdx]? else none
        | none => none).getD
      ((match m[clIdx]? with
        | some row => if cIdx < row.length then some row[cIdx]? else none
        | none => none).getD none)))))) := by
  simp only [relAtLocal]
  exact chain6_getD _ _ _ _ _ _

set_option maxHeartbeats 1000000 in
theorem relAtLocal_eq_resolved (m : List (List String)) (cIdx clIdx : Nat)
    (cc clc : Option Nat) :
    relAtLocal m cIdx clIdx cc clc = relAtResolved m cIdx clIdx cc clc := by
  rw [relAtLocal_eq_chain]
  rcases h0 : m[0]? with _ | first
  · have hm : m = [] := by
      have := List.getElem?_eq_none_iff.mp h0
      exact List.eq_nil_of_length_eq_zero (by omega)
    subst hm
    simp [relAtResolved, readCell, rowLen, firstLen]
  · have h0lt : 0 < m.length := (List.getElem?_eq_some.mp h0).1
    have hf : firstLen m = some first.length := by simp [firstLen, h0]
    rcases hc : m[cIdx]? with _ | rowc <;> rcases hl : m[clIdx]? with _ | rowl
    · have hc2 : ¬ cIdx < m.length := by
        have := List.getElem?_eq_none_iff.mp hc; omega
      have hl2 : ¬ clIdx < m.length := by
        have := List.getElem?_eq_none_iff.mp hl; omega
      simp [relAtResolved, readCell, rowLen, firstLen, h0, hc, hl, hc2, hl2]
    · have hc2 : ¬ cIdx < m.length := by
        have := List.getElem?_eq_none_iff.mp hc; omega
      have hl2 : clIdx < m.length := (List.getElem?_eq_some.mp hl).1
      simp only [h0, hc, hl, Option.map_none, Option.map_some, Option.getD_some,
        Option.getD_none, ite_self]
      simp only [relAtResolved, readCell, rowLen, firstLen, h0, hc, hl]
      simp only [hc2, hl2, and_true, and_false, false_and, if_false, hf,
        Option.getD_none, Option.getD_some, List.length_nil, Nat.not_lt_zero,
        ite_self]
      split_ifs <;> simp_all
    · have hc2 : cIdx < m.length := (List.getElem?_eq_some.mp hc).1
      have hl2 : ¬ clIdx < m.length := by
        have := List.getElem?_eq_none_iff.mp hl; omega
      simp only [h0, hc, hl, Option.map_none, Option.map_some, Option.getD_some,
        Option.getD_none, ite_self]
      simp only [relAtResolved, readCell, rowLen, firstLen, h0, hc, hl]
      simp only [hc2, hl2, and_true, and_false, false_and, if_false, hf,
        Option.getD_none, Option.getD_some, List.length_nil, Nat.not_lt_zero,
        ite_self]
      split_ifs <;> simp_all
    · have hc2 : cIdx < m.length := (List.getElem?_eq_some.mp hc).1
      have hl2 : clIdx < m.length := (List.getElem?_eq_some.mp hl).1
      simp only [h0, hc, hl, Option.map_none, Option.map_some, Option.getD_some,
        Option.getD_none, ite_self]
      simp only [relAtResolved, readCell, rowLen, firstLen, h0, hc, hl]
      simp only [hc2, hl2, and_true, hf, Option.getD_none, Option.getD_some]
      split_ifs <;> simp_all

/-- C1 (counterexample): the claimed resolution order is not the implemented
one.  For the 3-row degenerate matrix `[[Neutral], [Entailment], [Neutral]]`
with 3 chunks and 2 claims at cell (chunk 0, claim 1), the claimed order
falls through to the `M[claim][chunk]` fallback and yields `Entailment`,
while `relAtLocal` commits to chunk-major on the outer-length match alone
and returns unknown. -/
theorem c1_claim_counterexample :
    relAtLocal [["Neutral"], ["Entailment"], ["Neutral"]] 0 1 (some 3) (some 2)
      = none ∧
    relAtClaimed [["Neutral"], ["Entailment"], ["Neutral"]] 0 1 3 2
      = some "Entailment" := by
  decide

/-- C1 (amended): the relation lookup resolves in exactly this order:
(a) if the outer length equals the known chunk count, read chunk-major
`M[chunk][claim]` (a missing cell resolves to unknown); (b) else if the
outer length equals the known claim count, read claim-major; (c) else if
the first row's length equals the claim count, read chunk-major; (d) else
if the first row's length equals the chunk count, read claim-major;
(e) else try direct `M[chunk][claim]` if in bounds; (f) else try
`M[claim][chunk]` if in bounds; (g) else return unknown. -/
theorem c1_resolution_order (m : List (List String)) (cIdx clIdx : Nat)
    (cc clc : Option Nat) :
    relAtLocal m cIdx clIdx cc clc = relAtResolved m cIdx clIdx cc clc :=
  relAtLocal_eq_resolved m cIdx clIdx cc clc

theorem transposeM_length (m : List (List String)) (k : Nat) :
    (transposeM m k).length = k := by
  simp [transposeM]

theorem transposeM_getElem (m : List (List String)) (k j : Nat) (hj : j < k) :
    (transposeM m k)[j]? = some (m.filterMap (fun row => row[j]?)) := by
  simp [transposeM, List.getElem?_map, List.getElem?_range hj]

theorem filterMap_col_getElem (m : List (List String)) (K : Nat)
    (hrect : ∀ row ∈ m, row.length = K) (i j : Nat) (hj : j < K) :
    (m.filterMap (fun row => row[j]?))[i]? = (m[i]?).bind (fun row => row[j]?) := by
  induction m generalizing i with
  | nil => simp
  | cons row rest ih =>
    have hr : row.length = K := hrect row (List.mem_cons_self _ _)
    have hjr : j < row.length := by omega
    rw [List.filterMap_cons]
    simp only [List.getElem?_eq_getElem hjr]
    cases i with
    | zero => simp
    | succ n =>
      simpa using ih (fun r hrm => hrect r (List.mem_cons_of_mem _ hrm)) n

/-- C8 (counterexample): transpose invariance fails on square matrices.  For
the 2-by-2 matrix `[[Neutral, Entailment], [Neutral, Neutral]]` with 2 chunks
and 2 claims, cell (chunk 0, claim 1) resolves to `Entailment` against the
matrix but to `Neutral` against its transpose with the same (here equal and
therefore also swapped) counts. -/
theorem c8_claim_counterexample :
    relAtLocal [["Neutral", "Entailment"], ["Neutral", "Neutral"]] 0 1
      (some 2) (some 2) = some "Entailment" ∧
    relAtLocal (transposeM [["Neutral", "Entailment"], ["Neutral", "Neutral"]] 2)
      0 1 (some 2) (some 2) = some "Neutral" := by
  decide

/-- C8 (amended): for distinct chunk and claim counts the resolver is
transpose-invariant: for every rectangular chunk-major matrix with C rows of
length K, C and K distinct, and every in-range cell, resolving against the
matrix and against its transpose (with the same chunk and claim counts)
yields the identical relation. -/
theorem c8_transpose_invariant (m : List (List String)) (C K i j : Nat)
    (hCK : C ≠ K) (hlen : m.length = C)
    (hrect : ∀ row ∈ m, row.length = K) (hi : i < C) (hj : j < K) :
    relAtLocal (transposeM m K) i j (some C) (some K) =
      relAtLocal m i j (some C) (some K) := by
  rw [relAtLocal_eq_resolved, relAtLocal_eq_resolved]
  have hi2 : i < m.length := by omega
  obtain ⟨rowi, hrowi⟩ : ∃ r, m[i]? = some r := ⟨_, List.getElem?_eq_getElem hi2⟩
  have ht : (transposeM m K).length = K := transposeM_length m K
  have hR : relAtResolved m i j (some C) (some K) = rowi[j]? := by
    unfold relAtResolved
    rw [if_pos ⟨congrArg some hlen.symm, hi2⟩]
    unfold readCell
    rw [hrowi]
    rfl
  have hL : relAtResolved (transposeM m K) i j (some C) (some K) = rowi[j]? := by
    unfold relAtResolved
    rw [if_neg, if_pos ⟨by rw [ht], by omega⟩]
    · unfold readCell
      rw [transposeM_getElem m K j hj]
      have hcol : (m.filterMap (fun row => row[j]?))[i]? =
          (m[i]?).bind (fun row => row[j]?) :=
        filterMap_col_getElem m K hrect i j hj
      simp only [Option.getD_some]
      rw [hcol, hrowi]
      rfl
    · intro h
      apply hCK
      have h1 := h.1
      rw [ht] at h1
      exact Option.some.inj h1
  rw [hL, hR]

/-- C8 (witness): the amended transpose invariance applied to a concrete
rectangular 2-by-3 matrix. -/
theorem c8_transpose_invariant_witness :
    relAtLocal (transposeM [["a", "b", "c"], ["d", "e", "f"]] 3) 0 1
      (some 2) (some 3) =
    relAtLocal [["a", "b", "c"], ["d", "e", "f"]] 0 1 (some 2) (some 3) :=
  c8_transpose_invariant [["a", "b", "c"], ["d", "e", "f"]] 2 3 0 1
    (by decide) (by decide) (by decide) (by decide) (by decide)

/-- C9 (counterexample): relation recognition is not limited to the literal
strings: `mapRelToStatus` lower-cases its input, so the value "ENTAILMENT",
which is none of the three literals, is recognized as entailed instead of
being treated as Neutral. -/
theorem c9_claim_counterexample :
    mapRelToStatus (some "ENTAILMENT") = ClaimStatus.entailed ∧
    "ENTAILMENT" ∉ (["Entailment", "Contradiction", "Neutral"] : List String) := by
  decide

/-- C9 (amended): `mapRelToStatus` recognizes the relation names
case-insensitively, mapping everything else (missing values included) to
neutral, while `pushByRel` recognizes exactly the literal strings and drops
any other or missing relation without touching the sets; neither can fail. -/
theorem c9_relation_recognition :
    (∀ rel : Option String,
      (mapRelToStatus rel = ClaimStatus.entailed ↔
        lowerStr (rel.getD "") = "entailment") ∧
      (mapRelToStatus rel = ClaimStatus.contradiction ↔
        lowerStr (rel.getD "") = "contradiction") ∧
      (lowerStr (rel.getD "") ≠ "entailment" →
        lowerStr (rel.getD "") ≠ "contradiction" →
        mapRelToStatus rel = ClaimStatus.neutral)) ∧
    (∀ (t : RelSet) (rel : Option String) (claim : String),
      rel.getD "" ∉ (["Entailment", "Contradiction", "Neutral"] : List String) →
      pushByRel t rel claim = t) := by
  constructor
  · intro rel
    refine ⟨?_, ?_, ?_⟩
    · simp only [mapRelToStatus]
      split_ifs <;> simp_all
    · simp only [mapRelToStatus]
      split_ifs <;> simp_all
    · intro h1 h2
      simp only [mapRelToStatus]
      split_ifs <;> simp_all
  · intro t rel claim h
    simp only [List.mem_cons, List.not_mem_nil, not_or, or_false] at h
    rcases rel with _ | s
    · unfold pushByRel
      simp
    · simp only [Option.getD_some] at h
      unfold pushByRel
      split_ifs with g1 g2 g3 g4 <;> simp_all

/-- C9 (witness): the amended recognition facts applied to the literal
"Contradiction", to a missing relation, and to an unrecognized relation fed
through `pushByRel`. -/
theorem c9_relation_recognition_witness :
    mapRelToStatus (some "Contradiction") = ClaimStatus.contradiction ∧
    mapRelToStatus none = ClaimStatus.neutral ∧
    pushByRel ⟨[], [], []⟩ (some "Unknown") "claim" = ⟨[], [], []⟩ := by
  refine ⟨?_, ?_, ?_⟩
  · exact ((c9_relation_recognition.1 (some "Contradiction")).2.1).mpr (by decide)
  · exact (c9_relation_recognition.1 none).2.2 (by decide) (by decide)
  · exact c9_relation_recognition.2 ⟨[], [], []⟩ (some "Unknown") "claim" (by decide)

/-- C2 (counterexample): with no direct per-claim judgment array present the
status is not derived by aggregating across chunks: the single chunk entails
the single GT claim, so the claimed fallback yields entailed, yet
`gtClaimStatuses` reports neutral. -/
theorem c2_claim_counterexample :
    qC2.response2answer = none ∧
    aggClaimStatus qC2.retrieved2answer qC2.retrieved_context.length
      qC2.gt_answer_claims 0 = ClaimStatus.entailed ∧
    gtClaimStatuses qC2 = [ClaimStatus.neutral] := by
  decide

/-- C2 (amended): the per-claim status always comes from the direct array
(`response2answer` for GT claims, `answer2response` for response claims),
whose entries are used verbatim through `mapRelToStatus`; when the direct
array is absent every claim is Neutral — chunk aggregation is never
consulted. -/
theorem c2_direct_statuses (q : Question) :
    gtClaimStatuses q
      = mapDirectStatuses q.response2answer q.gt_answer_claims.length ∧
    respClaimStatuses q
      = mapDirectStatuses q.answer2response q.response_claims.length ∧
    (∀ i, i < q.gt_answer_claims.length →
      (gtClaimStatuses q)[i]?
        = some (mapRelToStatus (dEntryRel ((q.response2answer.getD [])[i]?)))) ∧
    (q.response2answer = none →
      gtClaimStatuses q
        = List.replicate q.gt_answer_claims.length ClaimStatus.neutral) ∧
    (q.answer2response = none →
      respClaimStatuses q
        = List.replicate q.response_claims.length ClaimStatus.neutral) := by
  refine ⟨rfl, rfl, ?_, ?_, ?_⟩
  · intro i hi
    simp [gtClaimStatuses, mapDirectStatuses, List.getElem?_map,
      List.getElem?_range hi]
  · intro h
    rw [List.eq_replicate_iff]
    constructor
    · simp [gtClaimStatuses, mapDirectStatuses]
    · intro b hb
      simp only [gtClaimStatuses, mapDirectStatuses, h, Option.getD_none,
        List.mem_map] at hb
      obtain ⟨i, _, hbi⟩ := hb
      simp [← hbi, dEntryRel, mapRelToStatus, lowerStr]
  · intro h
    rw [List.eq_replicate_iff]
    constructor
    · simp [respClaimStatuses, mapDirectStatuses]
    · intro b hb
      simp only [respClaimStatuses, mapDirectStatuses, h, Option.getD_none,
        List.mem_map] at hb
      obtain ⟨i, _, hbi⟩ := hb
      simp [← hbi, dEntryRel, mapRelToStatus, lowerStr]

/-- C2 (witness): the amended statement applied to the concrete question
with a missing direct array. -/
theorem c2_direct_statuses_witness :
    (gtClaimStatuses qC2)[0]?
      = some (mapRelToStatus (dEntryRel ((qC2.response2answer.getD [])[0]?))) ∧
    gtClaimStatuses qC2
      = List.replicate qC2.gt_answer_claims.length ClaimStatus.neutral := by
  refine ⟨(c2_direct_statuses qC2).2.2.1 0 (by decide),
    (c2_direct_statuses qC2).2.2.2.1 (by decide)⟩

theorem normalize_of_unit {v : ℚ} (h0 : 0 ≤ v) (h1 : v ≤ 1) :
    RunOverview.normalize v = v := by
  rw [RunOverview.normalize, if_neg (by linarith), min_eq_left h1, max_eq_right h0]

theorem normalize_of_percent {v : ℚ} (h1 : 1 < v) (h2 : v ≤ 100) :
    RunOverview.normalize v = v / 100 := by
  rw [RunOverview.normalize, if_pos h1, min_eq_left (by linarith : v / 100 ≤ 1)]

theorem normalize_of_out {v : ℚ} (h : v < 0 ∨ 100 < v) :
    RunOverview.normalize v = min 1 (max 0 v) := by
  rcases h with h | h
  · rw [RunOverview.normalize, if_neg (by linarith),
      min_eq_left (by linarith : v ≤ 1), max_eq_left (le_of_lt h),
      min_eq_right (by norm_num : (0 : ℚ) ≤ 1)]
  · rw [RunOverview.normalize, if_pos (by linarith),
      min_eq_right (by linarith : (1 : ℚ) ≤ v / 100),
      max_eq_right (by linarith : (0 : ℚ) ≤ v),
      min_eq_left (by linarith : (1 : ℚ) ≤ v)]

theorem normalizeSpec_warn {v : ℚ} (h : v < 0 ∨ 100 < v) :
    (normalizeSpec v).2 = true := by
  rcases h with h | h
  · rw [normalizeSpec, if_neg (by rintro ⟨a, _⟩; linarith),
      if_neg (by rintro ⟨a, _⟩; linarith)]
  · rw [normalizeSpec, if_neg (by rintro ⟨_, a⟩; linarith),
      if_neg (by rintro ⟨_, a⟩; linarith)]

theorem normalizeSpec_fst (v : ℚ) :
    (normalizeSpec v).1 = RunOverview.normalize v := by
  by_cases h0 : 0 ≤ v ∧ v ≤ 1
  · rw [normalizeSpec, if_pos h0, normalize_of_unit h0.1 h0.2]
  · by_cases h1 : 1 < v ∧ v ≤ 100
    · rw [normalizeSpec, if_neg h0, if_pos h1, normalize_of_percent h1.1 h1.2]
    · push_neg at h0 h1
      have hout : v < 0 ∨ 100 < v := by
        by_cases hv : 1 < v
        · exact Or.inr (h1 hv)
        · rcases le_or_lt 0 v with hp | hp
          · exact absurd (h0 hp) (not_lt.mpr (not_lt.mp hv))
          · exact Or.inl hp
      rw [normalize_of_out hout, normalizeSpec]
      rcases hout with h | h
      · rw [if_neg (by rintro ⟨a, _⟩; linarith), if_neg (by rintro ⟨a, _⟩; linarith)]
      · rw [if_neg (by rintro ⟨_, a⟩; linarith), if_neg (by rintro ⟨_, a⟩; linarith)]

theorem normalize_mem_unit (v : ℚ) :
    0 ≤ RunOverview.normalize v ∧ RunOverview.normalize v ≤ 1 := by
  rw [RunOverview.normalize]
  split_ifs with h
  · exact ⟨le_min (div_nonneg (by linarith) (by norm_num)) zero_le_one,
      min_le_right _ _⟩
  · exact ⟨le_max_left 0 _, max_le zero_le_one (min_le_right _ _)⟩

/-- C5: for every raw metric value v the normalized value equals v on
`[0, 1]`, equals v/100 on `(1, 100]`, and otherwise equals v clamped into
`[0, 1]` with a warning recorded in the spec-modelled warning channel; the
result never leaves `[0, 1]`, and the concrete cases 0.42, 84 and 142 behave
as specified. -/
theorem c5_normalize :
    (∀ v : ℚ,
      (0 ≤ v → v ≤ 1 → RunOverview.normalize v = v) ∧
      (1 < v → v ≤ 100 → RunOverview.normalize v = v / 100) ∧
      (v < 0 ∨ 100 < v →
        RunOverview.normalize v = min 1 (max 0 v) ∧ (normalizeSpec v).2 = true) ∧
      (normalizeSpec v).1 = RunOverview.normalize v ∧
      0 ≤ RunOverview.normalize v ∧ RunOverview.normalize v ≤ 1) ∧
    RunOverview.normalize (42 / 100) = 42 / 100 ∧
    RunOverview.normalize 84 = 84 / 100 ∧
    RunOverview.normalize 142 = 1 ∧ (normalizeSpec 142).2 = true := by
  refine ⟨fun v => ⟨fun h0 h1 => normalize_of_unit h0 h1,
      fun h1 h2 => normalize_of_percent h1 h2,
      fun h => ⟨normalize_of_out h, normalizeSpec_warn h⟩,
      normalizeSpec_fst v, normalize_mem_unit v⟩,
    normalize_of_unit (by norm_num) (by norm_num),
    normalize_of_percent (by norm_num) (by norm_num), ?_,
    normalizeSpec_warn (by norm_num)⟩
  rw [normalize_of_out (by norm_num : (142 : ℚ) < 0 ∨ (100 : ℚ) < 142)]
  rw [max_eq_right (by norm_num : (0 : ℚ) ≤ 142), min_eq_left (by norm_num : (1 : ℚ) ≤ 142)]

/-- C5 (witness): the per-value statement applied at v = 42/100, discharging
its range hypotheses there. -/
theorem c5_normalize_witness :
    RunOverview.normalize (42 / 100) = 42 / 100 ∧
    (normalizeSpec (42 / 100)).1 = RunOverview.normalize (42 / 100) := by
  refine ⟨(c5_normalize.1 (42 / 100)).1 (by norm_num) (by norm_num),
    ((c5_normalize.1 (42 / 100)).2.2.2).1⟩

theorem pushByRel_contradictions (t : RelSet) (rel : Option String) (claim : String) :
    (pushByRel t rel claim).contradictions
      = t.contradictions
        ++ (if claim ≠ "" ∧ rel = some "Contradiction" then [claim] else []) := by
  unfold pushByRel
  split_ifs <;> simp_all

theorem pushByRel_entailments (t : RelSet) (rel : Option String) (claim : String) :
    (pushByRel t rel claim).entailments
      = t.entailments
        ++ (if claim ≠ "" ∧ rel = some "Entailment" then [claim] else []) := by
  unfold pushByRel
  split_ifs <;> simp_all

theorem foldl_push_contradictions (relOf : Nat → Option String)
    (clOf : Nat → String) (l : List Nat) (t : RelSet) :
    (l.foldl (fun t i => pushByRel t (relOf i) (clOf i)) t).contradictions
      = t.contradictions
        ++ l.filterMap (fun i =>
            if clOf i ≠ "" ∧ relOf i = some "Contradiction" then some (clOf i)
            else none) := by
  induction l generalizing t with
  | nil => simp
  | cons a l ih =>
    rw [List.foldl_cons, ih, List.filterMap_cons, pushByRel_contradictions]
    split_ifs <;> simp

theorem foldl_push_entailments (relOf : Nat → Option String)
    (clOf : Nat → String) (l : List Nat) (t : RelSet) :
    (l.foldl (fun t i => pushByRel t (relOf i) (clOf i)) t).entailments
      = t.entailments
        ++ l.filterMap (fun i =>
            if clOf i ≠ "" ∧ relOf i = some "Entailment" then some (clOf i)
            else none) := by
  induction l generalizing t with
  | nil => simp
  | cons a l ih =>
    rw [List.foldl_cons, ih, List.filterMap_cons, pushByRel_entailments]
    split_ifs <;> simp

theorem accumRels_con_pos (matrix : List (List String)) (chunkIndex : Nat)
    (claims : List String) (cc : Nat) (hne : ∀ s ∈ claims, s ≠ "") :
    (0 < (accumRels matrix chunkIndex claims cc).contradictions.length) ↔
      anyRel matrix chunkIndex claims cc "Contradiction" = true := by
  unfold accumRels anyRel
  rw [foldl_push_contradictions]
  simp only [List.nil_append, List.length_pos, Ne, List.filterMap_eq_nil_iff]
  push_neg
  rw [List.any_eq_true]
  constructor
  · rintro ⟨i, hi, hsome⟩
    refine ⟨i, hi, ?_⟩
    by_cases hcond : (claims[i]?).getD "" ≠ ""
        ∧ relAtLocal matrix chunkIndex i (some cc) (some claims.length)
          = some "Contradiction"
    · simp [hcond.2]
    · exact absurd (by rw [if_neg hcond]) hsome
  · rintro ⟨i, hi, hp⟩
    have hi2 : i < claims.length := List.mem_range.mp hi
    have hval : (claims[i]?).getD "" ≠ "" := by
      rw [List.getElem?_eq_getElem hi2, Option.getD_some]
      exact hne _ (List.getElem_mem hi2)
    have hrel : relAtLocal matrix chunkIndex i (some cc) (some claims.length)
        = some "Contradiction" := by simpa using hp
    refine ⟨i, hi, ?_⟩
    rw [if_pos ⟨hval, hrel⟩]
    simp

theorem accumRels_ent_pos (matrix : List (List String)) (chunkIndex : Nat)
    (claims : List String) (cc : Nat) (hne : ∀ s ∈ claims, s ≠ "") :
    (0 < (accumRels matrix chunkIndex claims cc).entailments.length) ↔
      anyRel matrix chunkIndex claims cc "Entailment" = true := by
  unfold accumRels anyRel
  rw [foldl_push_entailments]
  simp only [List.nil_append, List.length_pos, Ne, List.filterMap_eq_nil_iff]
  push_neg
  rw [List.any_eq_true]
  constructor
  · rintro ⟨i, hi, hsome⟩
    refine ⟨i, hi, ?_⟩
    by_cases hcond : (claims[i]?).getD "" ≠ ""
        ∧ relAtLocal matrix chunkIndex i (some cc) (some claims.length)
          = some "Entailment"
    · simp [hcond.2]
    · exact absurd (by rw [if_neg hcond]) hsome
  · rintro ⟨i, hi, hp⟩
    have hi2 : i < claims.length := List.mem_range.mp hi
    have hval : (claims[i]?).getD "" ≠ "" := by
      rw [List.getElem?_eq_getElem hi2, Option.getD_some]
      exact hne _ (List.getElem_mem hi2)
    have hrel : relAtLocal matrix chunkIndex i (some cc) (some claims.length)
        = some "Entailment" := by simpa using hp
    refine ⟨i, hi, ?_⟩
    rw [if_pos ⟨hval, hrel⟩]
    simp

/-- C3: for every question and chunk index, provided every extracted claim
is a non-empty string (the claim extractor filters blank claims), the
chunk's InputQuality is harming when the resolver reports a Contradiction
against at least one GT claim, else relevant when it reports an Entailment
against at least one GT claim, else irrelevant; and its UsageStatus is
contradicting / grounded / unused by the same rule over the response
claims. -/
theorem c3_chunk_classification (q : Question) (c : Nat)
    (hgt : ∀ s ∈ q.gt_answer_claims, s ≠ "")
    (hresp : ∀ s ∈ q.response_claims, s ≠ "") :
    chunkStatusForSets (getClaimSetsForChunk q c)
      = (if anyRel q.retrieved2answer c q.gt_answer_claims
            q.retrieved_context.length "Contradiction" then ChunkStatus.harming
         else if anyRel q.retrieved2answer c q.gt_answer_claims
            q.retrieved_context.length "Entailment" then ChunkStatus.relevant
         else ChunkStatus.irrelevant) ∧
    usageStatusForSets (getClaimSetsForChunk q c)
      = (if anyRel q.retrieved2response c q.response_claims
            q.retrieved_context.length "Contradiction" then UsageStatus.contradicting
         else if anyRel q.retrieved2response c q.response_claims
            q.retrieved_context.length "Entailment" then UsageStatus.grounded
         else UsageStatus.unused) := by
  have k1 := accumRels_con_pos q.retrieved2answer c q.gt_answer_claims
    q.retrieved_context.length hgt
  have k2 := accumRels_ent_pos q.retrieved2answer c q.gt_answer_claims
    q.retrieved_context.length hgt
  have k3 := accumRels_con_pos q.retrieved2response c q.response_claims
    q.retrieved_context.length hresp
  have k4 := accumRels_ent_pos q.retrieved2response c q.response_claims
    q.retrieved_context.length hresp
  constructor
  · simp only [chunkStatusForSets, getClaimSetsForChunk]
    simp only [k1, k2]
  · simp only [usageStatusForSets, getClaimSetsForChunk]
    simp only [k3, k4]

/-- C3 (witness): the classification applied to a concrete question whose
chunk entails its one GT claim and touches no response claim. -/
theorem c3_chunk_classification_witness :
    chunkStatusForSets (getClaimSetsForChunk qC2 0) = ChunkStatus.relevant ∧
    usageStatusForSets (getClaimSetsForChunk qC2 0) = UsageStatus.unused := by
  refine ⟨?_, ?_⟩
  · rw [(c3_chunk_classification qC2 0 (by decide) (by decide)).1]
    decide
  · rw [(c3_chunk_classification qC2 0 (by decide) (by decide)).2]
    decide

/-- C4 (counterexample): the summary counters do not classify each chunk
under exactly one label per axis: a chunk that both entails one GT claim and
contradicts another is counted both as relevant and as harming, and
likewise both as grounded and as contradicting for the response axis. -/
theorem c4_claim_counterexample :
    (summaryFlags qC4 0).relevant = true ∧ (summaryFlags qC4 0).harming = true ∧
    (summaryFlags qC4 0).grounded = true ∧
    (summaryFlags qC4 0).contradicting = true := by
  decide

/-- C4 (amended): the derived statuses themselves are total and mutually
exclusive: per chunk, exactly one of the relevant/irrelevant/harming filter
flags holds, and grounded and unused are each other's negation; only the
independent indicator counters (any-entailment, any-contradiction) of the
summary row and the contradicting flag may overlap. -/
theorem c4_exclusivity (q : Question) (idx : Nat) :
    boolCount3 (flagsFor q idx).relevant (flagsFor q idx).irrelevant
      (flagsFor q idx).harming = 1 ∧
    (flagsFor q idx).grounded = !(flagsFor q idx).unused := by
  constructor
  · simp only [flagsFor, boolCount3]
    cases hs : chunkStatusForSets (getClaimSetsForChunk q idx) <;> simp [hs]
  · simp only [flagsFor]
    rcases h : (getClaimSetsForChunk q idx).response.entailments.length with _ | n <;>
      simp [h]

theorem addQ_mem (l : List String) (a s : String) :
    s ∈ addQ l a ↔ s ∈ l ∨ s = a := by
  unfold addQ
  split_ifs with h
  · constructor
    · exact Or.inl
    · rintro (hs | rfl)
      · exact hs
      · exact h
  · simp

theorem addQ_nodup (l : List String) (a : String) (h : l.Nodup) :
    (addQ l a).Nodup := by
  unfold addQ
  split_ifs with hmem
  · exact h
  · simpa [List.nodup_append] using ⟨h, hmem⟩

theorem foldl_addQ_mem (l : List String) (init : List String) (s : String) :
    s ∈ l.foldl addQ init ↔ s ∈ init ∨ s ∈ l := by
  induction l generalizing init with
  | nil => simp
  | cons a t ih =>
    rw [List.foldl_cons, ih, addQ_mem]
    simp only [List.mem_cons]
    tauto

theorem foldl_addQ_nodup (l : List String) (init : List String)
    (h : init.Nodup) : (l.foldl addQ init).Nodup := by
  induction l generalizing init with
  | nil => exact h
  | cons a t ih => exact ih _ (addQ_nodup _ _ h)

theorem sumFreq_upsert (m : List ChunkInfo) (d x qid : String) :
    sumFreq (upsert m d x qid) = sumFreq m + 1 := by
  induction m with
  | nil => rfl
  | cons info rest ih =>
    unfold upsert
    split_ifs with h
    · simp [sumFreq]
      omega
    · simp only [sumFreq, List.map_cons, List.sum_cons] at ih ⊢
      omega

theorem sumFreq_foldl (occs : List (String × Chunk)) (m0 : List ChunkInfo) :
    sumFreq (occs.foldl processOcc m0)
      = sumFreq m0 + (occs.filter (fun p => validChunk p.2)).length := by
  induction occs generalizing m0 with
  | nil => simp
  | cons p rest ih =>
    rw [List.foldl_cons, ih]
    unfold processOcc
    by_cases h : validChunk p.2
    · rw [if_pos h, sumFreq_upsert, List.filter_cons_of_pos (by simpa using h)]
      simp
      omega
    · rw [if_neg h, List.filter_cons_of_neg (by simpa using h)]

theorem lookupKey_upsert_same (m : List ChunkInfo) (d x qid : String) :
    lookupKey (upsert m d x qid) (chunkKey d x)
      = updOcc (lookupKey m (chunkKey d x)) (qid, ⟨d, x, none⟩) := by
  induction m with
  | nil => simp [upsert, lookupKey, updOcc, List.find?]
  | cons info rest ih =>
    unfold upsert
    split_ifs with h
    · rw [lookupKey, List.find?_cons_of_pos _ (by simpa using h),
        lookupKey, List.find?_cons_of_pos _ (by simpa using h)]
      rfl
    · rw [lookupKey, List.find?_cons_of_neg _ (by simpa using h),
        lookupKey, List.find?_cons_of_neg _ (by simpa using h)]
      exact ih

theorem lookupKey_upsert_other (m : List ChunkInfo) (d x qid k : String)
    (hk : k ≠ chunkKey d x) :
    lookupKey (upsert m d x qid) k = lookupKey m k := by
  induction m with
  | nil =>
    unfold upsert lookupKey
    simp [Ne.symm hk]
  | cons info rest ih =>
    unfold upsert
    split_ifs with h
    · by_cases hik : chunkKey info.doc_id info.text = k
      · exact absurd (hik.symm.trans h) hk
      · rw [lookupKey, List.find?_cons_of_neg _ (by simpa using hik),
          lookupKey, List.find?_cons_of_neg _ (by simpa using hik)]
    · by_cases hik : chunkKey info.doc_id info.text = k
      · rw [lookupKey, List.find?_cons_of_pos _ (by simpa using hik),
          lookupKey, List.find?_cons_of_pos _ (by simpa using hik)]
      · rw [lookupKey, List.find?_cons_of_neg _ (by simpa using hik),
          lookupKey, List.find?_cons_of_neg _ (by simpa using hik)]
        exact ih

theorem lookupKey_foldl (occs : List (String × Chunk)) (m0 : List ChunkInfo)
    (k : String) :
    lookupKey (occs.foldl processOcc m0) k
      = (occs.filter (fun p => validChunk p.2
          && decide (chunkKey p.2.doc_id p.2.text = k))).foldl updOcc
          (lookupKey m0 k) := by
  induction occs generalizing m0 with
  | nil => rfl
  | cons p rest ih =>
    rw [List.foldl_cons, ih]
    by_cases hv : validChunk p.2
    · by_cases hk : chunkKey p.2.doc_id p.2.text = k
      · rw [List.filter_cons_of_pos (by simp [hv, hk]), List.foldl_cons]
        have : lookupKey (processOcc m0 p) k = updOcc (lookupKey m0 k) p := by
          unfold processOcc
          rw [if_pos hv, ← hk, lookupKey_upsert_same]
          cases lookupKey m0 (chunkKey p.2.doc_id p.2.text) <;> rfl
        rw [this]
      · rw [List.filter_cons_of_neg (by simp [hk])]
        unfold processOcc
        rw [if_pos hv, lookupKey_upsert_other _ _ _ _ _ (fun hkk => hk hkk.symm)]
    · rw [List.filter_cons_of_neg (by simp [hv])]
      unfold processOcc
      rw [if_neg hv]

theorem updFold_some (rest : List (String × Chunk)) (info : ChunkInfo) :
    rest.foldl updOcc (some info)
      = some { info with frequency := info.frequency + rest.length
                         questions := (rest.map Prod.fst).foldl addQ info.questions } := by
  induction rest generalizing info with
  | nil => simp
  | cons p r ih =>
    rw [List.foldl_cons]
    have h1 : updOcc (some info) p
        = some { info with frequency := info.frequency + 1
                           questions := addQ info.questions p.1 } := rfl
    rw [h1, ih]
    cases info
    simp only [List.map_cons, List.foldl_cons, List.length_cons, Option.some.injEq,
      ChunkInfo.mk.injEq, true_and, and_true]
    omega

theorem updFold_cons (p : String × Chunk) (t : List (String × Chunk)) :
    (p :: t).foldl updOcc none
      = some ⟨p.2.doc_id, p.2.text, t.length + 1,
          ((p :: t).map Prod.fst).foldl addQ [], wordCount p.2.text⟩ := by
  rw [List.foldl_cons]
  have h1 : updOcc none p
      = some ⟨p.2.doc_id, p.2.text, 1, [p.1], wordCount p.2.text⟩ := rfl
  rw [h1, updFold_some]
  have haddq : addQ [] p.1 = [p.1] := by simp [addQ]
  simp only [List.map_cons, List.foldl_cons, List.length_cons, Option.some.injEq,
    ChunkInfo.mk.injEq, haddq, true_and, and_true]
  omega

theorem keysOf_upsert_subset (m : List ChunkInfo) (d x qid k : String)
    (h : k ∈ keysOf (upsert m d x qid)) : k ∈ keysOf m ∨ k = chunkKey d x := by
  induction m with
  | nil =>
    simp [upsert, keysOf] at h
    exact Or.inr h
  | cons info rest ih =>
    unfold upsert at h
    split_ifs at h with hkey
    · simp only [keysOf, List.map_cons, List.mem_cons] at h ⊢
      rcases h with h | h
      · exact Or.inl (Or.inl h)
      · exact Or.inl (Or.inr h)
    · simp only [keysOf, List.map_cons, List.mem_cons] at h ⊢
      rcases h with h | h
      · exact Or.inl (Or.inl h)
      · rcases ih h with h2 | h2
        · exact Or.inl (Or.inr h2)
        · exact Or.inr h2

theorem upsert_keys_nodup (m : List ChunkInfo) (d x qid : String)
    (h : (keysOf m).Nodup) : (keysOf (upsert m d x qid)).Nodup := by
  induction m with
  | nil => simp [upsert, keysOf]
  | cons info rest ih =>
    unfold upsert
    split_ifs with hkey
    · simpa [keysOf] using h
    · simp only [keysOf, List.map_cons, List.nodup_cons] at h ⊢
      refine ⟨fun hmem => ?_, ih h.2⟩
      rcases keysOf_upsert_subset rest d x qid _ hmem with h2 | h2
      · exact h.1 h2
      · exact hkey h2

theorem foldl_keys_nodup (occs : List (String × Chunk)) (m0 : List ChunkInfo)
    (h : (keysOf m0).Nodup) : (keysOf (occs.foldl processOcc m0)).Nodup := by
  induction occs generalizing m0 with
  | nil => exact h
  | cons p rest ih =>
    rw [List.foldl_cons]
    apply ih
    unfold processOcc
    split_ifs with hv
    · exact upsert_keys_nodup m0 _ _ _ h
    · exact h

theorem mem_lookupKey (m : List ChunkInfo) (info : ChunkInfo)
    (hmem : info ∈ m) (h : (keysOf m).Nodup) :
    lookupKey m (chunkKey info.doc_id info.text) = some info := by
  induction m with
  | nil => simp at hmem
  | cons head rest ih =>
    rcases List.mem_cons.mp hmem with rfl | hmem2
    · rw [lookupKey, List.find?_cons_of_pos _ (by simp)]
    · simp only [keysOf, List.map_cons, List.nodup_cons] at h
      have hne : chunkKey head.doc_id head.text ≠ chunkKey info.doc_id info.text := by
        intro he
        exact h.1 (he ▸ List.mem_map_of_mem _ hmem2)
      rw [lookupKey, List.find?_cons_of_neg _ (by simpa using hne)]
      exact ih hmem2 h.2

theorem build_lookup (qs : List Question) (k : String) :
    lookupKey (buildChunkMap qs) k = (keyOccs qs k).foldl updOcc none := by
  unfold buildChunkMap keyOccs
  rw [lookupKey_foldl]
  rfl

theorem build_lookup_none (qs : List Question) (k : String) :
    lookupKey (buildChunkMap qs) k = none ↔ keyOccs qs k = [] := by
  rw [build_lookup]
  constructor
  · intro h
    rcases hko : keyOccs qs k with _ | ⟨p, t⟩
    · rfl
    · rw [hko, updFold_cons] at h
      exact absurd h (by simp)
  · intro h
    rw [h]
    rfl

theorem build_lookup_char (qs : List Question) (k : String) (info : ChunkInfo)
    (h : lookupKey (buildChunkMap qs) k = some info) :
    ∃ p0 t, keyOccs qs k = p0 :: t ∧
      info.doc_id = p0.2.doc_id ∧ info.text = p0.2.text ∧
      info.frequency = (keyOccs qs k).length ∧
      info.questions = ((keyOccs qs k).map Prod.fst).foldl addQ [] ∧
      info.wordCount = wordCount p0.2.text := by
  rw [build_lookup] at h
  rcases hko : keyOccs qs k with _ | ⟨p, t⟩
  · rw [hko] at h
    exact absurd h (by simp)
  · rw [hko, updFold_cons] at h
    refine ⟨p, t, rfl, ?_⟩
    rw [Option.some.injEq] at h
    rw [← h]
    simp [hko]

theorem build_mem_lookup (qs : List Question) (info : ChunkInfo)
    (hmem : info ∈ buildChunkMap qs) :
    lookupKey (buildChunkMap qs) (chunkKey info.doc_id info.text) = some info := by
  apply mem_lookupKey _ _ hmem
  exact foldl_keys_nodup _ _ (by simp [keysOf])

/-- C7 (counterexample): run-wide identity is the joined string
`doc_id:text`, so the distinct chunks ("a", "b:c") and ("a:b", "c") collide:
the run aggregates them into a single entry whose questions list contains
"q2" although the (doc_id, text) pair ("a", "b:c") of that entry never
occurs in question "q2", and whose frequency 2 counts both pairs. -/
theorem c7_claim_counterexample :
    (buildChunkMap [qColl1, qColl2]).map
        (fun i => (i.doc_id, i.text, i.frequency, i.questions))
      = [("a", "b:c", 2, ["q1", "q2"])] ∧
    qColl2.retrieved_context.all
        (fun ch => !(ch.doc_id == "a" && ch.text == "b:c")) = true := by
  decide

/-- C7 (amended): conservation holds as stated — the aggregated frequencies
sum to the total count of valid (question, chunk) occurrences of the run —
and each entry's frequency counts, and its questions list deduplicates the
effective query ids of, the occurrences of its joined doc_id:text key
(which coincide with the occurrences of its (doc_id, text) pair unless a
colon-bearing doc id makes two distinct pairs share a key). -/
theorem c7_conservation (qs : List Question) :
    sumFreq (buildChunkMap qs) = (validOccs qs).length ∧
    ∀ info ∈ buildChunkMap qs,
      info.frequency = (keyOccs qs (chunkKey info.doc_id info.text)).length ∧
      info.questions.Nodup ∧
      ∀ s, s ∈ info.questions ↔
        s ∈ (keyOccs qs (chunkKey info.doc_id info.text)).map Prod.fst := by
  constructor
  · unfold buildChunkMap validOccs
    rw [sumFreq_foldl]
    simp [sumFreq]
  · intro info hmem
    have h := build_mem_lookup qs info hmem
    obtain ⟨p0, t, hko, hdoc, htext, hfreq, hquest, hwc⟩ :=
      build_lookup_char qs _ info h
    refine ⟨hfreq, ?_, ?_⟩
    · rw [hquest]
      exact foldl_addQ_nodup _ _ (by simp)
    · intro s
      rw [hquest, foldl_addQ_mem]
      simp

/-- C7 (witness): conservation and the per-entry facts applied to the
one-question run around `qC2`. -/
theorem c7_conservation_witness :
    sumFreq (buildChunkMap [qC2]) = (validOccs [qC2]).length ∧
    (⟨"d", "t", 1, ["q1"], 1⟩ : ChunkInfo).frequency
      = (keyOccs [qC2] (chunkKey "d" "t")).length := by
  refine ⟨(c7_conservation [qC2]).1, ?_⟩
  exact ((c7_conservation [qC2]).2 ⟨"d", "t", 1, ["q1"], 1⟩ (by decide)).1

theorem dupLookup_key (dm : List (String × List (String × String)))
    (t : String) (p : String × List (String × String))
    (h : dupLookup dm t = some p) : p.1 = t := by
  simpa using List.find?_some h

theorem dupUpsert_lookup_same (dm : List (String × List (String × String)))
    (nt : String) (mem : String × String) :
    dupLookup (dupUpsert dm nt mem) nt
      = some (match dupLookup dm nt with
          | none => (nt, [mem])
          | some p => (p.1, p.2 ++ [mem])) := by
  induction dm with
  | nil => simp [dupUpsert, dupLookup, List.find?]
  | cons q rest ih =>
    rcases q with ⟨k, ms⟩
    unfold dupUpsert
    split_ifs with hk
    · rw [dupLookup, List.find?_cons_of_pos _ (by simpa using hk),
        dupLookup, List.find?_cons_of_pos _ (by simpa using hk)]
    · rw [dupLookup, List.find?_cons_of_neg _ (by simpa using hk),
        dupLookup, List.find?_cons_of_neg _ (by simpa using hk)]
      exact ih

theorem dupUpsert_lookup_other (dm : List (String × List (String × String)))
    (nt : String) (mem : String × String) (t : String) (ht : t ≠ nt) :
    dupLookup (dupUpsert dm nt mem) t = dupLookup dm t := by
  induction dm with
  | nil =>
    unfold dupUpsert dupLookup
    simp [Ne.symm ht]
  | cons q rest ih =>
    rcases q with ⟨k, ms⟩
    unfold dupUpsert
    split_ifs with hk
    · by_cases hkt : k = t
      · exact absurd (hkt.symm.trans hk) ht
      · rw [dupLookup, List.find?_cons_of_neg _ (by simpa using hkt),
          dupLookup, List.find?_cons_of_neg _ (by simpa using hkt)]
    · by_cases hkt : k = t
      · rw [dupLookup, List.find?_cons_of_pos _ (by simpa using hkt),
          dupLookup, List.find?_cons_of_pos _ (by simpa using hkt)]
      · rw [dupLookup, List.find?_cons_of_neg _ (by simpa using hkt),
          dupLookup, List.find?_cons_of_neg _ (by simpa using hkt)]
        exact ih

theorem dupLookup_foldl (entries : List ChunkInfo)
    (dm0 : List (String × List (String × String))) (t : String) :
    dupLookup (entries.foldl dstep dm0) t
      = dupCombine (dupLookup dm0 t) t
          ((entries.filter (dupPred t)).map dupMember) := by
  induction entries generalizing dm0 with
  | nil =>
    cases h : dupLookup dm0 t <;> simp [h, dupCombine]
  | cons e rest ih =>
    rw [List.foldl_cons, ih]
    by_cases he : e.text ≠ ""
    · by_cases hnt : normText e.text = t
      · rw [List.filter_cons_of_pos (by simp [dupPred, he, hnt])]
        have hstep : dupLookup (dstep dm0 e) t
            = some (match dupLookup dm0 t with
                | none => (t, [dupMember e])
                | some p => (p.1, p.2 ++ [dupMember e])) := by
          unfold dstep
          rw [if_pos he, ← hnt, dupUpsert_lookup_same]
        rw [hstep]
        cases h0 : dupLookup dm0 t with
        | none => simp [dupCombine]
        | some p => simp [dupCombine]
      · rw [List.filter_cons_of_neg (by simp [dupPred, hnt])]
        have hstep : dupLookup (dstep dm0 e) t = dupLookup dm0 t := by
          unfold dstep
          rw [if_pos he]
          exact dupUpsert_lookup_other _ _ _ _ (fun h => hnt h.symm)
        rw [hstep]
    · rw [List.filter_cons_of_neg (by simp [dupPred, he])]
      have hstep : dupLookup (dstep dm0 e) t = dupLookup dm0 t := by
        unfold dstep
        rw [if_neg he]
      rw [hstep]

theorem dupLookup_build (m : List ChunkInfo) (t : String) :
    dupLookup (buildDupMap m) t
      = (if (m.filter (dupPred t)) = [] then none
         else some (t, (m.filter (dupPred t)).map dupMember)) := by
  unfold buildDupMap
  rw [dupLookup_foldl]
  have h0 : dupLookup [] t = none := rfl
  rw [h0]
  rcases hf : m.filter (dupPred t) with _ | ⟨a, r⟩ <;> simp [dupCombine]

theorem dupUpsert_keys_subset (dm : List (String × List (String × String)))
    (nt : String) (mem : String × String) (k : String)
    (h : k ∈ (dupUpsert dm nt mem).map Prod.fst) :
    k ∈ dm.map Prod.fst ∨ k = nt := by
  induction dm with
  | nil =>
    simp [dupUpsert] at h
    exact Or.inr h
  | cons q rest ih =>
    rcases q with ⟨kq, ms⟩
    unfold dupUpsert at h
    split_ifs at h with hk
    · simp only [List.map_cons, List.mem_cons] at h ⊢
      tauto
    · simp only [List.map_cons, List.mem_cons] at h ⊢
      rcases h with h | h
      · exact Or.inl (Or.inl h)
      · rcases ih h with h2 | h2
        · exact Or.inl (Or.inr h2)
        · exact Or.inr h2

theorem dupUpsert_keys_nodup (dm : List (String × List (String × String)))
    (nt : String) (mem : String × String)
    (h : (dm.map Prod.fst).Nodup) : ((dupUpsert dm nt mem).map Prod.fst).Nodup := by
  induction dm with
  | nil => simp [dupUpsert]
  | cons q rest ih =>
    rcases q with ⟨kq, ms⟩
    unfold dupUpsert
    split_ifs with hk
    · simpa using h
    · simp only [List.map_cons, List.nodup_cons] at h ⊢
      refine ⟨fun hmem => ?_, ih h.2⟩
      rcases dupUpsert_keys_subset rest nt mem _ hmem with h2 | h2
      · exact h.1 h2
      · exact hk (h2 ▸ rfl)

theorem foldl_dstep_keys_nodup (entries : List ChunkInfo)
    (dm0 : List (String × List (String × String)))
    (h : (dm0.map Prod.fst).Nodup) :
    (((entries.foldl dstep dm0)).map Prod.fst).Nodup := by
  induction entries generalizing dm0 with
  | nil => exact h
  | cons e rest ih =>
    rw [List.foldl_cons]
    apply ih
    unfold dstep
    split_ifs with hv
    · exact dupUpsert_keys_nodup dm0 _ _ h
    · exact h

theorem dup_mem_lookup (dm : List (String × List (String × String)))
    (p : String × List (String × String)) (hmem : p ∈ dm)
    (h : (dm.map Prod.fst).Nodup) : dupLookup dm p.1 = some p := by
  induction dm with
  | nil => simp at hmem
  | cons head rest ih =>
    rcases List.mem_cons.mp hmem with rfl | hmem2
    · rw [dupLookup, List.find?_cons_of_pos _ (by simp)]
    · simp only [List.map_cons, List.nodup_cons] at h
      have hne : head.1 ≠ p.1 := by
        intro he
        exact h.1 (he ▸ List.mem_map_of_mem _ hmem2)
      rw [dupLookup, List.find?_cons_of_neg _ (by simpa using hne)]
      exact ih hmem2 h.2

theorem two_mem_one_lt_length {α : Type} (l : List α) (a b : α)
    (ha : a ∈ l) (hb : b ∈ l) (hab : a ≠ b) : 1 < l.length := by
  cases l with
  | nil => simp at ha
  | cons x t =>
    cases t with
    | nil =>
      simp only [List.mem_singleton] at ha hb
      exact absurd (ha.trans hb.symm) hab
    | cons y u =>
      simp only [List.length_cons]
      omega

theorem exists_two_of_one_lt_nodup (l : List String) (h : 1 < l.length)
    (hn : l.Nodup) : ∃ a ∈ l, ∃ b ∈ l, a ≠ b := by
  cases l with
  | nil => simp at h
  | cons a t =>
    cases t with
    | nil => simp at h
    | cons b u =>
      refine ⟨a, List.mem_cons_self _ _, b,
        List.mem_cons_of_mem _ (List.mem_cons_self _ _), fun hab => ?_⟩
      exact (List.nodup_cons.mp hn).1 (hab ▸ List.mem_cons_self _ _)

theorem keyOccs_sub_validOccs (qs : List Question) (k : String)
    (p : String × Chunk) (h : p ∈ keyOccs qs k) :
    p ∈ validOccs qs ∧ chunkKey p.2.doc_id p.2.text = k := by
  unfold keyOccs at h
  unfold validOccs
  rw [List.mem_filter] at h
  rw [List.mem_filter]
  rcases h with ⟨hmem, hpred⟩
  rw [Bool.and_eq_true] at hpred
  exact ⟨⟨hmem, hpred.1⟩, of_decide_eq_true hpred.2⟩

theorem entry_to_occ (qs : List Question) (info : ChunkInfo)
    (hmem : info ∈ buildChunkMap qs) :
    ∃ p ∈ validOccs qs, info.doc_id = p.2.doc_id ∧ info.text = p.2.text := by
  obtain ⟨p0, t, hko, hdoc, htext, _, _, _⟩ :=
    build_lookup_char qs _ info (build_mem_lookup qs info hmem)
  have hp0 : p0 ∈ keyOccs qs (chunkKey info.doc_id info.text) := by
    rw [hko]; exact List.mem_cons_self _ _
  exact ⟨p0, (keyOccs_sub_validOccs qs _ p0 hp0).1, hdoc, htext⟩

theorem occ_to_entry (qs : List Question) (hinj : keyInj qs)
    (p : String × Chunk) (hp : p ∈ validOccs qs) :
    ∃ info ∈ buildChunkMap qs,
      info.doc_id = p.2.doc_id ∧ info.text = p.2.text := by
  have hpk : p ∈ keyOccs qs (chunkKey p.2.doc_id p.2.text) := by
    unfold keyOccs
    unfold validOccs at hp
    rw [List.mem_filter] at hp ⊢
    exact ⟨hp.1, by simp [hp.2]⟩
  have hne : keyOccs qs (chunkKey p.2.doc_id p.2.text) ≠ [] :=
    List.ne_nil_of_mem hpk
  rcases hlk : lookupKey (buildChunkMap qs) (chunkKey p.2.doc_id p.2.text) with
    _ | info
  · exact absurd ((build_lookup_none qs _).mp hlk) hne
  · obtain ⟨p0, t, hko, hdoc, htext, _, _, _⟩ := build_lookup_char qs _ info hlk
    have hp0 : p0 ∈ keyOccs qs (chunkKey p.2.doc_id p.2.text) := by
      rw [hko]; exact List.mem_cons_self _ _
    obtain ⟨hp0v, hp0k⟩ := keyOccs_sub_validOccs qs _ p0 hp0
    obtain ⟨hd, ht⟩ := hinj p0 hp0v p hp hp0k
    exact ⟨info, List.mem_of_find?_eq_some hlk, hdoc.trans hd, htext.trans ht⟩

theorem distinctDocIds_two (ms : List (String × String)) (m1 m2 : String × String)
    (h1 : m1 ∈ ms) (h2 : m2 ∈ ms) (hne : m1.1 ≠ m2.1)
    (hn1 : m1.1 ≠ "") (hn2 : m2.1 ≠ "") : 1 < distinctDocIds ms := by
  unfold distinctDocIds
  have hd1 : m1.1 ∈ ((ms.map Prod.fst).filter (fun d => d ≠ "")).foldl addQ [] := by
    rw [foldl_addQ_mem, List.mem_filter]
    exact Or.inr ⟨List.mem_map_of_mem _ h1, by simpa using hn1⟩
  have hd2 : m2.1 ∈ ((ms.map Prod.fst).filter (fun d => d ≠ "")).foldl addQ [] := by
    rw [foldl_addQ_mem, List.mem_filter]
    exact Or.inr ⟨List.mem_map_of_mem _ h2, by simpa using hn2⟩
  exact two_mem_one_lt_length _ _ _ hd1 hd2 hne

theorem distinctDocIds_sources (ms : List (String × String))
    (h : 1 < distinctDocIds ms) : ∃ m1 ∈ ms, ∃ m2 ∈ ms, m1.1 ≠ m2.1 := by
  unfold distinctDocIds at h
  obtain ⟨a, ha, b, hb, hab⟩ :=
    exists_two_of_one_lt_nodup _ h (foldl_addQ_nodup _ _ (by simp))
  rw [foldl_addQ_mem] at ha hb
  simp only [List.not_mem_nil, false_or, List.mem_filter, List.mem_map] at ha hb
  obtain ⟨⟨m1, hm1, he1⟩, _⟩ := ha
  obtain ⟨⟨m2, hm2, he2⟩, _⟩ := hb
  exact ⟨m1, hm1, m2, hm2, by rw [he1, he2]; exact hab⟩

theorem dupMember_doc (info : ChunkInfo) (h : info.doc_id ≠ "") :
    dupMember info = (info.doc_id, info.text) := by
  unfold dupMember
  rw [if_neg h]

theorem entry_fields_valid (qs : List Question) (info : ChunkInfo)
    (hmem : info ∈ buildChunkMap qs) : info.doc_id ≠ "" ∧ info.text ≠ "" := by
  obtain ⟨p, hp, hd, ht⟩ := entry_to_occ qs info hmem
  unfold validOccs at hp
  have hv : validChunk p.2 = true := (List.mem_filter.mp hp).2
  rw [validChunk, Bool.and_eq_true, decide_eq_true_iff, decide_eq_true_iff] at hv
  rw [hd, ht]
  exact hv

theorem group_to_sharers (qs : List Question) (g : DuplicateGroup)
    (hg : g ∈ duplicateGroups qs) :
    ∃ p1 ∈ validOccs qs, ∃ p2 ∈ validOccs qs,
      p1.2.doc_id ≠ p2.2.doc_id ∧
      normText p1.2.text = g.normalizedText ∧
      normText p2.2.text = g.normalizedText := by
  simp only [duplicateGroups] at hg
  rw [List.mem_mergeSort, List.mem_map] at hg
  obtain ⟨p, hpf, hpg⟩ := hg
  rw [List.mem_filter] at hpf
  obtain ⟨hpDM, hcond⟩ := hpf
  rw [Bool.and_eq_true, decide_eq_true_iff, decide_eq_true_iff] at hcond
  have hlook : dupLookup (buildDupMap (buildChunkMap qs)) p.1 = some p :=
    dup_mem_lookup _ p hpDM (foldl_dstep_keys_nodup _ _ (by simp))
  rw [dupLookup_build] at hlook
  have hgt : g.normalizedText = p.1 := by rw [← hpg]
  by_cases hfil : (buildChunkMap qs).filter (dupPred p.1) = []
  · rw [if_pos hfil] at hlook
    exact absurd hlook (by simp)
  · rw [if_neg hfil] at hlook
    have hp2 : p.2 = ((buildChunkMap qs).filter (dupPred p.1)).map dupMember :=
      (congrArg Prod.snd (Option.some.inj hlook)).symm
    obtain ⟨m1, hm1, m2, hm2, hmne⟩ := distinctDocIds_sources p.2 hcond.2
    rw [hp2, List.mem_map] at hm1 hm2
    obtain ⟨i1, hi1f, hd1⟩ := hm1
    obtain ⟨i2, hi2f, hd2⟩ := hm2
    rw [List.mem_filter] at hi1f hi2f
    obtain ⟨hi1M, hp1pred⟩ := hi1f
    obtain ⟨hi2M, hp2pred⟩ := hi2f
    simp only [dupPred, Bool.and_eq_true, decide_eq_true_iff] at hp1pred hp2pred
    obtain ⟨hdoc1, _⟩ := entry_fields_valid qs i1 hi1M
    obtain ⟨hdoc2, _⟩ := entry_fields_valid qs i2 hi2M
    rw [dupMember_doc i1 hdoc1] at hd1
    rw [dupMember_doc i2 hdoc2] at hd2
    obtain ⟨o1, ho1, ho1d, ho1t⟩ := entry_to_occ qs i1 hi1M
    obtain ⟨o2, ho2, ho2d, ho2t⟩ := entry_to_occ qs i2 hi2M
    refine ⟨o1, ho1, o2, ho2, ?_, ?_, ?_⟩
    · intro he
      apply hmne
      rw [← hd1, ← hd2]
      show i1.doc_id = i2.doc_id
      rw [ho1d, ho2d, he]
    · rw [hgt, ← ho1t, hp1pred.2]
    · rw [hgt, ← ho2t, hp2pred.2]

theorem sharers_to_group (qs : List Question) (hinj : keyInj qs) (t : String)
    (p1 : String × Chunk) (hp1 : p1 ∈ validOccs qs)
    (p2 : String × Chunk) (hp2 : p2 ∈ validOccs qs)
    (hdne : p1.2.doc_id ≠ p2.2.doc_id)
    (ht1 : normText p1.2.text = t) (ht2 : normText p2.2.text = t) :
    ∃ g ∈ duplicateGroups qs, g.normalizedText = t := by
  obtain ⟨i1, hi1M, hi1d, hi1t⟩ := occ_to_entry qs hinj p1 hp1
  obtain ⟨i2, hi2M, hi2d, hi2t⟩ := occ_to_entry qs hinj p2 hp2
  have hv1 : validChunk p1.2 = true := (List.mem_filter.mp hp1).2
  have hv2 : validChunk p2.2 = true := (List.mem_filter.mp hp2).2
  rw [validChunk, Bool.and_eq_true, decide_eq_true_iff, decide_eq_true_iff] at hv1 hv2
  have hpred1 : dupPred t i1 = true := by
    rw [dupPred, Bool.and_eq_true, decide_eq_true_iff, decide_eq_true_iff]
    exact ⟨by rw [hi1t]; exact hv1.2, by rw [hi1t, ht1]⟩
  have hpred2 : dupPred t i2 = true := by
    rw [dupPred, Bool.and_eq_true, decide_eq_true_iff, decide_eq_true_iff]
    exact ⟨by rw [hi2t]; exact hv2.2, by rw [hi2t, ht2]⟩
  have hi1fil : i1 ∈ (buildChunkMap qs).filter (dupPred t) :=
    List.mem_filter.mpr ⟨hi1M, hpred1⟩
  have hi2fil : i2 ∈ (buildChunkMap qs).filter (dupPred t) :=
    List.mem_filter.mpr ⟨hi2M, hpred2⟩
  have hm1 : dupMember i1 ∈ ((buildChunkMap qs).filter (dupPred t)).map dupMember :=
    List.mem_map_of_mem _ hi1fil
  have hm2 : dupMember i2 ∈ ((buildChunkMap qs).filter (dupPred t)).map dupMember :=
    List.mem_map_of_mem _ hi2fil
  have hd1 : dupMember i1 = (i1.doc_id, i1.text) :=
    dupMember_doc i1 (by rw [hi1d]; exact hv1.1)
  have hd2 : dupMember i2 = (i2.doc_id, i2.text) :=
    dupMember_doc i2 (by rw [hi2d]; exact hv2.1)
  have hmemne : (dupMember i1).1 ≠ (dupMember i2).1 := by
    rw [hd1, hd2]
    show i1.doc_id ≠ i2.doc_id
    rw [hi1d, hi2d]
    exact hdne
  have hlen : 1 < (((buildChunkMap qs).filter (dupPred t)).map dupMember).length :=
    two_mem_one_lt_length _ _ _ hm1 hm2 (fun he => hmemne (he ▸ rfl))
  have hdd : 1 < distinctDocIds (((buildChunkMap qs).filter (dupPred t)).map dupMember) := by
    apply distinctDocIds_two _ _ _ hm1 hm2 hmemne
    · rw [hd1]; show i1.doc_id ≠ ""; rw [hi1d]; exact hv1.1
    · rw [hd2]; show i2.doc_id ≠ ""; rw [hi2d]; exact hv2.1
  have hfil : (buildChunkMap qs).filter (dupPred t) ≠ [] :=
    List.ne_nil_of_mem hi1fil
  have hlook : dupLookup (buildDupMap (buildChunkMap qs)) t
      = some (t, ((buildChunkMap qs).filter (dupPred t)).map dupMember) := by
    rw [dupLookup_build, if_neg hfil]
  have hDM : (t, ((buildChunkMap qs).filter (dupPred t)).map dupMember)
      ∈ buildDupMap (buildChunkMap qs) :=
    List.mem_of_find?_eq_some hlook
  refine ⟨⟨t, (((buildChunkMap qs).filter (dupPred t)).map dupMember).filter
      (fun c => c.1 ≠ "" && c.2 ≠ "")⟩, ?_, rfl⟩
  simp only [duplicateGroups]
  rw [List.mem_mergeSort, List.mem_map]
  refine ⟨(t, ((buildChunkMap qs).filter (dupPred t)).map dupMember), ?_, rfl⟩
  rw [List.mem_filter]
  refine ⟨hDM, ?_⟩
  rw [Bool.and_eq_true, decide_eq_true_iff, decide_eq_true_iff]
  exact ⟨hlen, hdd⟩

/-- C6 (counterexample): the reported-iff-shared equivalence fails because
run-wide identity is the joined `doc_id:text` string: in the run around
`qDup` the chunks ("a:b", "c") and ("z", "c") are valid, have distinct doc
ids and share the normalized text "c", yet no duplicate group at all is
reported, because ("a:b", "c") was merged into the colliding entry
("a", "b:c"). -/
theorem c6_claim_counterexample :
    duplicateGroups [qDup] = [] ∧
    ∃ p1 ∈ validOccs [qDup], ∃ p2 ∈ validOccs [qDup],
      p1.2.doc_id ≠ p2.2.doc_id ∧ normText p1.2.text = normText p2.2.text := by
  constructor
  · simp only [duplicateGroups]
    have h : (buildDupMap (buildChunkMap [qDup])).filter
        (fun p => decide (1 < p.2.length) && decide (1 < distinctDocIds p.2)) = [] := by
      decide
    rw [h]
    simp
  · exact ⟨("q1", ⟨"a:b", "c", none⟩), by decide,
      ("q1", ⟨"z", "c", none⟩), by decide, by decide, by decide⟩

/-- C6 (amended): over the joined-key aggregation, for every run whose
doc_id:text keys are injective on distinct chunks, a duplicate group with a
given normalized text is reported iff two valid occurrences with distinct
doc ids share that normalized text; and the reported groups are sorted by
descending member count.  The left-to-right direction holds for every run;
key collisions (a doc id containing a colon) can only suppress groups. -/
theorem c6_duplicate_groups (qs : List Question) (hinj : keyInj qs) :
    (∀ t : String,
      (∃ g ∈ duplicateGroups qs, g.normalizedText = t) ↔
      (∃ p1 ∈ validOccs qs, ∃ p2 ∈ validOccs qs,
        p1.2.doc_id ≠ p2.2.doc_id ∧
        normText p1.2.text = t ∧ normText p2.2.text = t)) ∧
    List.Pairwise (fun a b => b.chunks.length ≤ a.chunks.length)
      (duplicateGroups qs) := by
  constructor
  · intro t
    constructor
    · rintro ⟨g, hg, rfl⟩
      exact group_to_sharers qs g hg
    · rintro ⟨p1, hp1, p2, hp2, hdne, ht1, ht2⟩
      exact sharers_to_group qs hinj t p1 hp1 p2 hp2 hdne ht1 ht2
  · simp only [duplicateGroups]
    have hs := @List.sorted_mergeSort DuplicateGroup
      (fun a b => decide (b.chunks.length ≤ a.chunks.length))
      (fun a b c hab hbc => by
        rw [decide_eq_true_iff] at hab hbc ⊢
        omega)
      (fun a b => by
        rw [Bool.or_eq_true, decide_eq_true_iff, decide_eq_true_iff]
        omega)
    exact (hs _).imp (fun h => by rwa [decide_eq_true_iff] at h)

/-- C6 (witness): the amended equivalence applied to a concrete collision-free
run with a genuine cross-document duplicate. -/
theorem c6_duplicate_groups_witness :
    ∃ g ∈ duplicateGroups [qW], g.normalizedText = "same text" := by
  exact ((c6_duplicate_groups [qW] (by unfold keyInj; decide)).1 "same text").mpr
    ⟨("w", ⟨"d1", "same text", none⟩), by decide,
     ("w", ⟨"d2", "same text", none⟩), by decide, by decide, by decide, by decide⟩

theorem lookupEnh_eq_none_iff (m : List EnhancedChunkData) (k : String) :
    lookupEnh m k = none ↔
      m.any (fun e => chunkKey e.doc_id e.text = k) = false := by
  unfold lookupEnh
  simp [List.find?_eq_none, List.any_eq_false]

theorem lookupEnh_append_single (m : List EnhancedChunkData)
    (r : EnhancedChunkData) (k : String) (hnone : lookupEnh m k = none) :
    lookupEnh (m ++ [r]) k
      = if chunkKey r.doc_id r.text = k then some r else none := by
  unfold lookupEnh at *
  rw [List.find?_append, hnone]
  split_ifs with h
  · rw [List.find?_cons_of_pos _ (by simpa using h)]
    rfl
  · rw [List.find?_cons_of_neg _ (by simpa using h)]
    rfl

theorem lookupEnh_processEnh_keep (m : List EnhancedChunkData)
    (p : String × Chunk) (k : String) (e : EnhancedChunkData)
    (hsome : lookupEnh m k = some e) :
    lookupEnh (processEnh m p) k = some e := by
  unfold processEnh
  rcases hea : p.2.effectiveness_analysis with _ | ea
  · split_ifs <;> exact hsome
  · simp only
    split_ifs with h1 h2
    · exact hsome
    · unfold lookupEnh at hsome ⊢
      rw [List.find?_append, hsome]
      rfl
    · exact hsome

theorem lookupEnh_processEnh_new (m : List EnhancedChunkData)
    (p : String × Chunk) (k : String) (h : enhOcc k p = true)
    (hnone : lookupEnh m k = none) :
    lookupEnh (processEnh m p) k = mkRowOf p := by
  unfold enhOcc at h
  rw [Bool.and_eq_true, Bool.and_eq_true] at h
  obtain ⟨⟨hv, hk⟩, hea⟩ := h
  rw [decide_eq_true_iff] at hk
  obtain ⟨ea, hea2⟩ := Option.isSome_iff_exists.mp hea
  unfold processEnh
  rw [hea2, if_pos hv]
  simp only
  have hany : (m.any fun e => decide (chunkKey e.doc_id e.text
      = chunkKey p.2.doc_id p.2.text)) = false := by
    rw [lookupEnh_eq_none_iff] at hnone
    rw [← hk] at hnone
    simpa using hnone
  rw [if_neg (by simp [hany])]
  rw [lookupEnh_append_single m _ k hnone,
    if_pos (show chunkKey (mkEnhanced p.2 ea).doc_id (mkEnhanced p.2 ea).text = k
      from hk)]
  unfold mkRowOf
  rw [hea2]
  rfl

theorem lookupEnh_processEnh_skip (m : List EnhancedChunkData)
    (p : String × Chunk) (k : String) (h : enhOcc k p = false)
    (hnone : lookupEnh m k = none) :
    lookupEnh (processEnh m p) k = none := by
  unfold processEnh
  rcases hea : p.2.effectiveness_analysis with _ | ea
  · split_ifs <;> exact hnone
  · simp only
    split_ifs with h1 h2
    · exact hnone
    · have hk : chunkKey p.2.doc_id p.2.text ≠ k := by
        intro hkk
        simp [enhOcc, h1, hkk, hea] at h
      rw [lookupEnh_append_single m _ k hnone,
        if_neg (show ¬ chunkKey (mkEnhanced p.2 ea).doc_id
          (mkEnhanced p.2 ea).text = k from hk)]
    · exact hnone

theorem lookupEnh_foldl (occs : List (String × Chunk))
    (m0 : List EnhancedChunkData) (k : String) :
    lookupEnh (occs.foldl processEnh m0) k
      = match lookupEnh m0 k with
        | some e => some e
        | none => ((occs.filter (enhOcc k)).head?).bind mkRowOf := by
  induction occs generalizing m0 with
  | nil => cases h : lookupEnh m0 k <;> simp [h]
  | cons p rest ih =>
    rw [List.foldl_cons, ih]
    cases h0 : lookupEnh m0 k with
    | some e =>
      rw [lookupEnh_processEnh_keep m0 p k e h0]
    | none =>
      cases he : enhOcc k p with
      | true =>
        rw [lookupEnh_processEnh_new m0 p k he h0,
          List.filter_cons_of_pos he]
        cases hrow : mkRowOf p with
        | none =>
          unfold mkRowOf at hrow
          unfold enhOcc at he
          rw [Bool.and_eq_true] at he
          rcases hea : p.2.effectiveness_analysis with _ | ea
          · rw [hea] at he; simp at he
          · rw [hea] at hrow; simp at hrow
        | some row => simp [hrow]
      | false =>
        rw [lookupEnh_processEnh_skip m0 p k he h0,
          List.filter_cons_of_neg (by simp [he])]

theorem buildEnh_lookup (qs : List Question) (k : String) :
    lookupEnh (buildEnhancedMap qs) k
      = (((occList qs).filter (enhOcc k)).head?).bind mkRowOf := by
  unfold buildEnhancedMap
  rw [lookupEnh_foldl]
  rfl

theorem numCoerce_nonneg (o : Option ℚ) : 0 ≤ numCoerce o := le_max_left 0 _

theorem rateCoerce_mem_unit (o : Option ℚ) :
    0 ≤ rateCoerce o ∧ rateCoerce o ≤ 1 :=
  ⟨le_max_left 0 _, max_le zero_le_one (min_le_left 1 _)⟩

theorem buildEnh_mem_shape (occs : List (String × Chunk))
    (m0 : List EnhancedChunkData) (row : EnhancedChunkData)
    (h : row ∈ occs.foldl processEnh m0) :
    row ∈ m0 ∨ ∃ ch ea, row = mkEnhanced ch ea := by
  induction occs generalizing m0 with
  | nil => exact Or.inl h
  | cons p rest ih =>
    rw [List.foldl_cons] at h
    rcases ih _ h with h2 | h2
    · unfold processEnh at h2
      rcases hea : p.2.effectiveness_analysis with _ | ea
      · rw [hea] at h2
        split_ifs at h2 <;> exact Or.inl h2
      · rw [hea] at h2
        simp only at h2
        split_ifs at h2 with h1 h3
        · exact Or.inl h2
        · rcases List.mem_append.mp h2 with h4 | h4
          · exact Or.inl h4
          · exact Or.inr ⟨p.2, ea, by simpa using h4⟩
        · exact Or.inl h2
    · exact Or.inr h2

/-- C10 (counterexample): the table row is not built from the first
occurrence of its key: in the run around `qE1` and `qE2` the first
occurrence of ("d", "t") carries no effectiveness payload, yet a row with
frequency 5 exists, seeded by the second occurrence. -/
theorem c10_claim_counterexample :
    (lookupEnh (buildEnhancedMap [qE1, qE2]) (chunkKey "d" "t")).map
        (fun r => r.frequency) = some 5 ∧
    ((keyOccs [qE1, qE2] (chunkKey "d" "t")).head?).bind
        (fun p => p.2.effectiveness_analysis) = none := by
  decide

/-- C10 (amended): every row of the whole-run chunk-effectiveness table is
well-typed regardless of the raw payload — frequency, frequency rank and
all six relation counts are non-negative and both entailment rates lie in
`[0, 1]` — and the row is built once, from the first valid occurrence of its
doc_id:text key that carries an effectiveness payload, with later
occurrences never modifying it. -/
theorem c10_enhanced_rows (qs : List Question) :
    (∀ k row, lookupEnh (buildEnhancedMap qs) k = some row →
      (((occList qs).filter (enhOcc k)).head?).bind mkRowOf = some row) ∧
    ∀ row ∈ buildEnhancedMap qs,
      0 ≤ row.frequency ∧ 0 ≤ row.frequency_rank ∧
      0 ≤ row.gt_entailments ∧ 0 ≤ row.gt_neutrals ∧
      0 ≤ row.gt_contradictions ∧ 0 ≤ row.response_entailments ∧
      0 ≤ row.response_neutrals ∧ 0 ≤ row.response_contradictions ∧
      0 ≤ row.gt_entailment_rate ∧ row.gt_entailment_rate ≤ 1 ∧
      0 ≤ row.response_entailment_rate ∧ row.response_entailment_rate ≤ 1 := by
  constructor
  · intro k row h
    rw [buildEnh_lookup] at h
    exact h
  · intro row hmem
    rcases buildEnh_mem_shape _ _ row hmem with h2 | ⟨ch, ea, rfl⟩
    · simp at h2
    · refine ⟨numCoerce_nonneg _, numCoerce_nonneg _, numCoerce_nonneg _,
        numCoerce_nonneg _, numCoerce_nonneg _, numCoerce_nonneg _,
        numCoerce_nonneg _, numCoerce_nonneg _,
        (rateCoerce_mem_unit _).1, (rateCoerce_mem_unit _).2,
        (rateCoerce_mem_unit _).1, (rateCoerce_mem_unit _).2⟩

/-- C10 (witness): the amended statement applied to the concrete two-question
run, discharging the lookup and membership hypotheses there. -/
theorem c10_enhanced_rows_witness :
    (((occList [qE1, qE2]).filter (enhOcc (chunkKey "d" "t"))).head?).bind mkRowOf
      = some (mkEnhanced ⟨"d", "t", some eaE⟩ eaE) ∧
    0 ≤ (mkEnhanced ⟨"d", "t", some eaE⟩ eaE).frequency := by
  refine ⟨(c10_enhanced_rows [qE1, qE2]).1 (chunkKey "d" "t")
      (mkEnhanced ⟨"d", "t", some eaE⟩ eaE) (by decide), ?_⟩
  exact ((c10_enhanced_rows [qE1, qE2]).2 (mkEnhanced ⟨"d", "t", some eaE⟩ eaE)
    (by decide)).1
